import Mathlib

set_option autoImplicit false

/-!
Shallow embedding of the note-anchoring engine of the `developer-tools`
extension: the CRUD service (`NotesService`), the change-batch reconciler
(`NotesLineTracker.processChanges` together with its relocation resolver
`findNoteLocation`), and the directory-rename path rewriter
(`NotesFileTracker.handleFileRename`).

Modelling conventions:
* JavaScript strings are Lean `String`s (code points stand in for UTF-16 units).
* The MD5 fingerprint from `crypto` is an abstract parameter `hashFn`; the
  source only ever compares digests.
* `new Date().toISOString()` is a `now : Nat` parameter threaded into every
  mutating operation.
* The insertion-ordered JavaScript `Map` is an association list; `Map.set` on a
  present key updates it in place, otherwise it appends.  A JavaScript map
  iterator walks the live entry list, so entries appended during iteration are
  visited; the reconciler's per-range loop is therefore modelled with an index
  into the evolving entry list plus a fuel argument (`none` = the loop did not
  finish within `fuel` entry visits).
* `vscode.TextDocument` is the list of its lines; `lineAt` on an invalid line
  (which throws in the host API) is modelled as `none`.
* `crypto.randomUUID()` is a `newId : String` parameter.
-/

namespace DevTools

/-- JavaScript `String.prototype.startsWith`. -/
def strStarts (s p : String) : Bool :=
  p.data.isPrefixOf s.data

/-- JavaScript `String.prototype.slice(n)` for `0 ≤ n`: drop the first `n` units. -/
def strDrop (s : String) (n : Nat) : String :=
  ⟨s.data.drop n⟩

/-- JavaScript string concatenation `a + b`. -/
def strCat (a b : String) : String :=
  ⟨a.data ++ b.data⟩

/-- Number of line breaks in a replacement text: `(text.match(/\n/g) || []).length`. -/
def countNewlines (s : String) : Nat :=
  (s.data.filter (fun c => c = '\n')).length

/-- Code-point lexicographic comparison of character lists (the model of
`localeCompare` used by the sorted views). -/
def charListLT : List Char → List Char → Bool
  | [], [] => false
  | [], _ :: _ => true
  | _ :: _, [] => false
  | a :: as, b :: bs =>
    if a.toNat < b.toNat then true
    else if b.toNat < a.toNat then false
    else charListLT as bs

/-- JavaScript truthiness of an optional string: `undefined` and `""` are falsy. -/
def truthyStr : Option String → Bool
  | none => false
  | some s => !(s == "")

/-- `NoteStatus` from `types.ts`. -/
inductive NoteStatus where
  | active
  | orphaned
deriving DecidableEq, Repr

/-- `NoteCategory` from `types.ts`. -/
inductive NoteCategory where
  | note
  | todo
  | fixme
  | question
deriving DecidableEq, Repr

/-- `SurroundingContext` from `types.ts`. -/
structure SurroundingContext where
  lineBefore : Option String
  lineAfter : Option String
deriving DecidableEq, Repr

/-- `Note` from `types.ts`.  Line numbers are `Int` because the reconciler's
arithmetic (`lineNum + lineDelta`) is plain JavaScript number arithmetic. -/
structure Note where
  id : String
  filePath : String
  lineNumber : Int
  lineContent : String
  lineContentHash : String
  surroundingContext : SurroundingContext
  text : String
  category : NoteCategory
  status : NoteStatus
  createdAt : Nat
  updatedAt : Nat
deriving DecidableEq, Repr

/-- `UpdateNoteOptions` from `types.ts`; `none` = the property is absent. -/
structure UpdateNoteOptions where
  text : Option String := none
  category : Option NoteCategory := none
  status : Option NoteStatus := none
  lineNumber : Option Int := none
  lineContent : Option String := none
  surroundingContext : Option SurroundingContext := none
deriving DecidableEq, Repr

/-- `CreateNoteOptions` from `types.ts`. -/
structure CreateNoteOptions where
  filePath : String
  lineNumber : Int
  lineContent : String
  text : String
  category : Option NoteCategory := none
  surroundingContext : Option SurroundingContext := none
deriving DecidableEq, Repr

/-- The `type` field of `NotesChangeEvent`. -/
inductive EventType where
  | created
  | updated
  | deleted
  | bulkDeleted
  | bulkUpdated
  | reloaded
deriving DecidableEq, Repr

/-- `NotesChangeEvent` from `types.ts`. -/
structure NotesChangeEvent where
  type : EventType
  noteIds : List String
  filePaths : List String
deriving DecidableEq, Repr

/-- The in-memory state of `NotesService`: the insertion-ordered
`Map<string, Note>` keyed by `note.id`, as its list of values. -/
structure NotesService where
  notes : List Note
deriving DecidableEq, Repr

/-- `Map.set(n.id, n)`: replace in place when the id is present, else append. -/
def setNote : List Note → Note → List Note
  | [], n => [n]
  | x :: t, n => if x.id == n.id then n :: t else x :: setNote t n

/-- `Map.delete(id)`: remove the entry with that id. -/
def delNote : List Note → String → List Note
  | [], _ => []
  | x :: t, id => if x.id == id then t else x :: delNote t id

/-- `Set<string>` insertion: add only if not already present. -/
def pushUnique (l : List String) (s : String) : List String :=
  if s ∈ l then l else l ++ [s]

/-- Comparator of `getByFile`: `(a, b) => a.lineNumber - b.lineNumber`. -/
def noteLineLE (a b : Note) : Prop :=
  a.lineNumber ≤ b.lineNumber

instance : DecidableRel noteLineLE :=
  fun a b => inferInstanceAs (Decidable (a.lineNumber ≤ b.lineNumber))

/-- Comparator of `getAll`: `filePath.localeCompare`, ties by `lineNumber`
(`localeCompare` modelled as code-point order). -/
def noteFileLine (a b : Note) : Prop :=
  charListLT a.filePath.data b.filePath.data = true ∨
    (a.filePath = b.filePath ∧ a.lineNumber ≤ b.lineNumber)

instance : DecidableRel noteFileLine :=
  fun a b =>
    inferInstanceAs (Decidable (charListLT a.filePath.data b.filePath.data = true ∨
      (a.filePath = b.filePath ∧ a.lineNumber ≤ b.lineNumber)))

namespace NotesService

/-- `NotesService.getById`. -/
def getById (svc : NotesService) (id : String) : Option Note :=
  svc.notes.find? (fun n => n.id == id)

/-- `NotesService.getByFile`: filter by path, sort by line number
(JavaScript's stable sort is `insertionSort`). -/
def getByFile (svc : NotesService) (filePath : String) : List Note :=
  List.insertionSort noteLineLE (svc.notes.filter (fun n => n.filePath == filePath))

/-- `NotesService.getAll`: all notes sorted by file path then line number. -/
def getAll (svc : NotesService) : List Note :=
  List.insertionSort noteFileLine svc.notes

/-- The field merge of `update`/`bulkUpdate`: `{...note, ...options,
updatedAt: now}` followed by `if (options.lineContent) hash = hashContent(...)`.
A supplied empty string is falsy, so it does not trigger the rehash. -/
def applyOptions (hashFn : String → String) (now : Nat) (note : Note)
    (o : UpdateNoteOptions) : Note :=
  let merged : Note :=
    { note with
      text := o.text.getD note.text
      category := o.category.getD note.category
      status := o.status.getD note.status
      lineNumber := o.lineNumber.getD note.lineNumber
      lineContent := o.lineContent.getD note.lineContent
      surroundingContext := o.surroundingContext.getD note.surroundingContext
      updatedAt := now }
  if truthyStr o.lineContent then
    { merged with lineContentHash := hashFn (o.lineContent.getD "") }
  else merged

/-- `NotesService.create`. -/
def create (hashFn : String → String) (now : Nat) (newId : String)
    (svc : NotesService) (o : CreateNoteOptions) :
    Note × NotesService × List NotesChangeEvent :=
  let note : Note :=
    { id := newId
      filePath := o.filePath
      lineNumber := o.lineNumber
      lineContent := o.lineContent
      lineContentHash := hashFn o.lineContent
      surroundingContext := o.surroundingContext.getD ⟨none, none⟩
      text := o.text
      category := o.category.getD .note
      status := .active
      createdAt := now
      updatedAt := now }
  (note, ⟨setNote svc.notes note⟩, [⟨.created, [note.id], [note.filePath]⟩])

/-- `NotesService.update`: no-op returning `none` for an unknown id. -/
def update (hashFn : String → String) (now : Nat) (svc : NotesService) (id : String)
    (o : UpdateNoteOptions) : Option Note × NotesService × List NotesChangeEvent :=
  match getById svc id with
  | none => (none, svc, [])
  | some note =>
    let un := applyOptions hashFn now note o
    (some un, ⟨setNote svc.notes un⟩, [⟨.updated, [id], [un.filePath]⟩])

/-- `NotesService.delete`: no-op returning `false` for an unknown id. -/
def delete (svc : NotesService) (id : String) :
    Bool × NotesService × List NotesChangeEvent :=
  match getById svc id with
  | none => (false, svc, [])
  | some note => (true, ⟨delNote svc.notes id⟩, [⟨.deleted, [id], [note.filePath]⟩])

/-- One iteration of the `bulkDelete` loop: delete the id when present, else
skip it. -/
def bulkDeleteStep (acc : NotesService × List String × List String) (id : String) :
    NotesService × List String × List String :=
  match getById acc.1 id with
  | some note => (⟨delNote acc.1.notes id⟩, acc.2.1 ++ [id], pushUnique acc.2.2 note.filePath)
  | none => acc

/-- `NotesService.bulkDelete`: skip unknown ids, return the number removed,
emit a single `bulk-deleted` event only when something was removed. -/
def bulkDelete (svc : NotesService) (ids : List String) :
    Nat × NotesService × List NotesChangeEvent :=
  let r := ids.foldl bulkDeleteStep (svc, [], [])
  (r.2.1.length, r.1, if r.2.1.isEmpty then [] else [⟨.bulkDeleted, r.2.1, r.2.2⟩])

/-- One iteration of the `bulkUpdate` loop: merge when the id is present, else
skip it. -/
def bulkUpdateStep (hashFn : String → String) (now : Nat)
    (acc : NotesService × List String × List String) (e : String × UpdateNoteOptions) :
    NotesService × List String × List String :=
  match getById acc.1 e.1 with
  | some note =>
    let un := applyOptions hashFn now note e.2
    (⟨setNote acc.1.notes un⟩, acc.2.1 ++ [e.1], pushUnique acc.2.2 un.filePath)
  | none => acc

/-- `NotesService.bulkUpdate`: merge each present entry, emit a single
`bulk-updated` event only when something was updated. -/
def bulkUpdate (hashFn : String → String) (now : Nat) (svc : NotesService)
    (entries : List (String × UpdateNoteOptions)) :
    Nat × NotesService × List NotesChangeEvent :=
  let r := entries.foldl (bulkUpdateStep hashFn now) (svc, [], [])
  (r.2.1.length, r.1, if r.2.1.isEmpty then [] else [⟨.bulkUpdated, r.2.1, r.2.2⟩])

/-- `NotesService.updateFilePath`: move every note at `oldPath` to `newPath`. -/
def updateFilePath (now : Nat) (svc : NotesService) (oldPath newPath : String) :
    Nat × NotesService × List NotesChangeEvent :=
  let affected := getByFile svc oldPath
  let notes' := svc.notes.map (fun n =>
    if n.filePath == oldPath then { n with filePath := newPath, updatedAt := now } else n)
  (affected.length, ⟨notes'⟩,
    if affected.isEmpty then []
    else [⟨.bulkUpdated, affected.map (fun n => n.id), [oldPath, newPath]⟩])

/-- `NotesService.markOrphaned`. -/
def markOrphaned (hashFn : String → String) (now : Nat) (svc : NotesService)
    (id : String) : Option Note × NotesService × List NotesChangeEvent :=
  update hashFn now svc id { status := some .orphaned }

end NotesService

namespace NotesLineTracker

/-- One `vscode.TextDocumentContentChangeEvent`: `range.start.line`,
`range.end.line` and the replacement text. -/
structure ChangeRange where
  startLine : Int
  endLine : Int
  text : String
deriving DecidableEq, Repr

/-- Comparator of `processChanges`: `(a, b) => b.range.start.line - a.range.start.line`
(descending start line). -/
def chgGE (a b : ChangeRange) : Prop :=
  b.startLine ≤ a.startLine

instance : DecidableRel chgGE :=
  fun a b => inferInstanceAs (Decidable (b.startLine ≤ a.startLine))

/-- `[...changes].sort(...)`: JavaScript's stable sort, descending by start line. -/
def sortChanges (l : List ChangeRange) : List ChangeRange :=
  List.insertionSort chgGE l

/-- The per-range derived quantities computed at the top of the range loop. -/
structure ChangeInfo where
  startLine : Int
  endLine : Int
  lineDelta : Int
  isPureDeletion : Bool
  isSingleLineEdit : Bool
deriving DecidableEq, Repr

/-- Derived quantities for one range: `deletedLines`, `addedLines`, `lineDelta`,
`isPureDeletion`, `isSingleLineEdit`. -/
def mkChangeInfo (c : ChangeRange) : ChangeInfo :=
  let deletedLines : Int := c.endLine - c.startLine
  let addedLines : Nat := countNewlines c.text
  { startLine := c.startLine
    endLine := c.endLine
    lineDelta := (addedLines : Int) - deletedLines
    isPureDeletion := decide (0 < deletedLines) && (c.text == "")
    isSingleLineEdit := decide (deletedLines = 0) && decide (addedLines = 0) }

/-- The live `noteLineMap : Map<number, Note[]>` as its insertion-ordered
entry list. -/
abbrev LineMap := List (Int × List Note)

/-- `noteLineMap.get(k)`. -/
def mapGet (m : LineMap) (k : Int) : Option (List Note) :=
  (m.find? (fun e => e.1 == k)).map (fun e => e.2)

/-- `noteLineMap.set(k, v)`: replace in place when present, else append. -/
def mapSet : LineMap → Int → List Note → LineMap
  | [], k, v => [(k, v)]
  | e :: t, k, v => if e.1 == k then (k, v) :: t else e :: mapSet t k v

/-- An element of `notesToUpdate`. -/
structure PendingUpdate where
  id : String
  lineNumber : Int
  needsVerification : Bool
deriving DecidableEq, Repr

/-- The mutable state of the range loop: the live line map and the three
outcome accumulators. -/
structure LoopState where
  m : LineMap
  toDelete : List String
  toOrphan : List String
  toUpdate : List PendingUpdate
deriving DecidableEq, Repr

/-- `notesToUpdate.find(u => u.id === id)` followed by
`existing.lineNumber += lineDelta`: bump the first entry with that id. -/
def bumpFirst : List PendingUpdate → String → Int → List PendingUpdate
  | [], _, _ => []
  | u :: t, id, d =>
    if u.id == id then { u with lineNumber := u.lineNumber + d } :: t
    else u :: bumpFirst t id d

/-- The body of the innermost loop of `processChanges`: classify one note
found at map key `k` against the current range. -/
def processNote (ci : ChangeInfo) (k : Int) (note : Note) (s : LoopState) : LoopState :=
  if note.id ∈ s.toDelete ∨ note.id ∈ s.toOrphan then s
  else if ci.startLine ≤ k ∧ k ≤ ci.endLine then
    if ci.isPureDeletion then
      { s with toDelete := s.toDelete ++ [note.id] }
    else if ci.isSingleLineEdit then
      { s with toUpdate := s.toUpdate ++ [PendingUpdate.mk note.id k true] }
    else
      { s with toOrphan := s.toOrphan ++ [note.id] }
  else if ci.endLine < k then
    let s' :=
      match s.toUpdate.find? (fun u => u.id == note.id) with
      | some _ => { s with toUpdate := bumpFirst s.toUpdate note.id ci.lineDelta }
      | none => { s with toUpdate := s.toUpdate ++ [PendingUpdate.mk note.id (k + ci.lineDelta) false] }
    let m1 := mapSet s'.m k (((mapGet s'.m k).getD []).filter (fun n => !(n.id == note.id)))
    let newLineNum := k + ci.lineDelta
    let m2 := mapSet m1 newLineNum
      (((mapGet m1 newLineNum).getD []) ++ [{ note with lineNumber := newLineNum }])
    { s' with m := m2 }
  else s

/-- `for (const note of lineNotes)`: fold over the bucket snapshot yielded by
the map iterator. -/
def processBucket (ci : ChangeInfo) (k : Int) (bucket : List Note) (s : LoopState) : LoopState :=
  bucket.foldl (fun s note => processNote ci k note s) s

/-- `for (const [lineNum, lineNotes] of noteLineMap.entries())`: the iterator
holds an index into the live entry list, so entries appended while processing
are visited too.  `none` means the loop did not finish within `fuel` visits. -/
def processEntriesFrom (ci : ChangeInfo) : Nat → Nat → LoopState → Option LoopState
  | 0, _, _ => none
  | fuel + 1, i, s =>
    if h : i < s.m.length then
      let e := s.m.get ⟨i, h⟩
      processEntriesFrom ci fuel (i + 1) (processBucket ci e.1 e.2 s)
    else some s

/-- Process one sorted range: a fresh iterator over the live map. -/
def processChange (fuel : Nat) (c : ChangeRange) (s : LoopState) : Option LoopState :=
  processEntriesFrom (mkChangeInfo c) fuel 0 s

/-- `for (const change of sortedChanges)`. -/
def runChanges (fuel : Nat) : List ChangeRange → LoopState → Option LoopState
  | [], s => some s
  | c :: rest, s =>
    match processChange fuel c s with
    | none => none
    | some s' => runChanges fuel rest s'

/-- Seeding of `noteLineMap` from the file's notes. -/
def seedMap (notes : List Note) : LineMap :=
  notes.foldl
    (fun m note =>
      mapSet m note.lineNumber (((mapGet m note.lineNumber).getD []) ++ [note]))
    []

/-- `document.lineAt(i).text`; the host API throws on an invalid line,
modelled as `none`. -/
def lineAt (doc : List String) (i : Int) : Option String :=
  if 0 ≤ i then doc.get? i.toNat else none

/-- `NotesLineTracker.getLineContent`: `null` when out of bounds. -/
def getLineContent (doc : List String) (lineNumber : Int) : Option String :=
  if lineNumber < 0 ∨ (doc.length : Int) ≤ lineNumber then none
  else lineAt doc lineNumber

/-- `NotesLineTracker.getSurroundingContext`. -/
def getSurroundingContext (doc : List String) (lineNumber : Int) : SurroundingContext :=
  { lineBefore := if 0 < lineNumber then lineAt doc (lineNumber - 1) else none
    lineAfter := if lineNumber < (doc.length : Int) - 1 then lineAt doc (lineNumber + 1) else none }

/-- First loop of `findNoteLocation`: scan from line `i` for the first line
whose text equals the target verbatim.  The loop
`for (let i = 0; i < document.lineCount; i++)` is embedded structurally with a
countdown first argument; callers pass `doc.length`, which dominates the
number of remaining iterations, so the in-bounds test below is the one that
ends the scan. -/
def scanExact (doc : List String) (target : String) : Nat → Nat → Option (Nat × String)
  | 0, _ => none
  | n + 1, i =>
    if h : i < doc.length then
      let c := doc.get ⟨i, h⟩
      if c == target then some (i, c) else scanExact doc target n (i + 1)
    else none

/-- The `beforeMatch && afterMatch` test of the second loop of
`findNoteLocation`; a falsy (absent or empty) recorded side is a wildcard. -/
def contextMatches (doc : List String) (sc : SurroundingContext) (i : Nat) : Bool :=
  let context := getSurroundingContext doc (i : Int)
  (bif truthyStr sc.lineBefore then context.lineBefore == sc.lineBefore else true) &&
  (bif truthyStr sc.lineAfter then context.lineAfter == sc.lineAfter else true)

/-- Second loop of `findNoteLocation`: scan for the first surrounding-context
match (structural countdown as in `scanExact`). -/
def scanContext (doc : List String) (sc : SurroundingContext) : Nat → Nat → Option Nat
  | 0, _ => none
  | n + 1, i =>
    if _h : i < doc.length then
      if contextMatches doc sc i then some i else scanContext doc sc n (i + 1)
    else none

/-- The result record of `findNoteLocation`. -/
structure NoteLocation where
  lineNumber : Int
  lineContent : String
  surroundingContext : SurroundingContext
deriving DecidableEq, Repr

/-- `NotesLineTracker.findNoteLocation`: exact content match first, then a
surrounding-context match only when some recorded side is truthy. -/
def findNoteLocation (doc : List String) (note : Note) : Option NoteLocation :=
  match scanExact doc note.lineContent doc.length 0 with
  | some r => some ⟨(r.1 : Int), r.2, getSurroundingContext doc (r.1 : Int)⟩
  | none =>
    if truthyStr note.surroundingContext.lineBefore ||
       truthyStr note.surroundingContext.lineAfter then
      match scanContext doc note.surroundingContext doc.length 0 with
      | some i => some ⟨(i : Int), (lineAt doc (i : Int)).getD "", getSurroundingContext doc (i : Int)⟩
      | none => none
    else none

/-- One entry of the post-loop `for (const update of notesToUpdate)` phase:
the bulk-update entry it contributes, if any. -/
def verifyStep (hashFn : String → String) (doc : List String) (svc : NotesService)
    (u : PendingUpdate) : Option (String × UpdateNoteOptions) :=
  match svc.getById u.id with
  | none => none
  | some note =>
    if u.needsVerification then
      match getLineContent doc u.lineNumber with
      | none => none
      | some currentContent =>
        if !(note.lineContentHash == hashFn currentContent) then
          match findNoteLocation doc note with
          | some loc =>
            some (u.id,
              { lineNumber := some loc.lineNumber
                lineContent := some loc.lineContent
                surroundingContext := some loc.surroundingContext
                status := some .active })
          | none => some (u.id, { status := some .orphaned })
        else none
    else
      if !(u.lineNumber == note.lineNumber) then
        let currentContent := getLineContent doc u.lineNumber
        some (u.id,
          { lineNumber := some u.lineNumber
            lineContent := some (currentContent.getD note.lineContent)
            surroundingContext := some (getSurroundingContext doc u.lineNumber) })
      else none

/-- One iteration of `for (const id of notesToOrphan)`: one `markOrphaned`
(i.e. `update`) call, appending whatever events it emits. -/
def orphanStep (hashFn : String → String) (now : Nat)
    (acc : NotesService × List NotesChangeEvent) (id : String) :
    NotesService × List NotesChangeEvent :=
  let r := NotesService.markOrphaned hashFn now acc.1 id
  (r.2.1, acc.2 ++ r.2.2)

/-- `for (const id of notesToOrphan) await markOrphaned(id)`: one `update`
call (and hence one `updated` event) per orphaned id. -/
def applyOrphans (hashFn : String → String) (now : Nat) (svc : NotesService)
    (ids : List String) : NotesService × List NotesChangeEvent :=
  ids.foldl (orphanStep hashFn now) (svc, [])

/-- `if (notesToDelete.length > 0) await bulkDelete(...)`. -/
def deletePhase (svc : NotesService) (s : LoopState) :
    NotesService × List NotesChangeEvent :=
  if s.toDelete.isEmpty then (svc, [])
  else ((svc.bulkDelete s.toDelete).2.1, (svc.bulkDelete s.toDelete).2.2)

/-- `if (bulkUpdates.length > 0) await bulkUpdate(bulkUpdates)`. -/
def updatePhase (hashFn : String → String) (now : Nat) (svc : NotesService)
    (entries : List (String × UpdateNoteOptions)) :
    NotesService × List NotesChangeEvent :=
  if entries.isEmpty then (svc, [])
  else ((NotesService.bulkUpdate hashFn now svc entries).2.1,
    (NotesService.bulkUpdate hashFn now svc entries).2.2)

/-- The post-loop phases of `processChanges`: deletions (bulk), orphaning
(per id), then the verification/shift phase applied as one bulk update. -/
def applyOutcomes (hashFn : String → String) (now : Nat) (svc : NotesService)
    (doc : List String) (s : LoopState) : NotesService × List NotesChangeEvent :=
  let d := deletePhase svc s
  let o := applyOrphans hashFn now d.1 s.toOrphan
  let bulkUpdates := s.toUpdate.filterMap (verifyStep hashFn doc o.1)
  let b := updatePhase hashFn now o.1 bulkUpdates
  (b.1, d.2 ++ o.2 ++ b.2)

/-- `NotesLineTracker.processChanges` for one file: the sorted range loop over
the live map, then the outcome phases.  `none` means the range loop did not
finish within `fuel` entry visits. -/
def processChanges (hashFn : String → String) (now : Nat) (fuel : Nat)
    (svc : NotesService) (filePath : String) (doc : List String)
    (changes : List ChangeRange) : Option (NotesService × List NotesChangeEvent) :=
  if changes.isEmpty then some (svc, []) else
  match runChanges fuel (sortChanges changes) ⟨seedMap (svc.getByFile filePath), [], [], []⟩ with
  | none => none
  | some s => some (applyOutcomes hashFn now svc doc s)

end NotesLineTracker

namespace NotesFileTracker

/-- The affectedness test of the directory branch:
`note.filePath.startsWith(oldPath + '/') || note.filePath === oldPath`. -/
def affectedPath (oldPath p : String) : Bool :=
  strStarts p (strCat oldPath "/") || p == oldPath

/-- The rewritten path of an affected note:
`newPath + note.filePath.slice(oldPath.length)`. -/
def renameTarget (oldPath newPath p : String) : String :=
  strCat newPath (strDrop p oldPath.data.length)

/-- The `pathUpdates` a directory rename collects: for every note whose path
equals `oldPath` or starts with `oldPath + '/'`, the pair of its current path
and `newPath + path.slice(oldPath.length)`. -/
def dirRenameUpdates (svc : NotesService) (oldPath newPath : String) :
    List (String × String) :=
  svc.getAll.filterMap (fun note =>
    if affectedPath oldPath note.filePath then
      some (note.filePath, renameTarget oldPath newPath note.filePath)
    else none)

/-- One iteration of `for (const { oldPath, newPath } of pathUpdates)`. -/
def renameStep (now : Nat) (acc : NotesService × List NotesChangeEvent)
    (e : String × String) : NotesService × List NotesChangeEvent :=
  let r := NotesService.updateFilePath now acc.1 e.1 e.2
  (r.2.1, acc.2 ++ r.2.2)

/-- The directory branch of `NotesFileTracker.handleFileRename`: collect
`pathUpdates`, then apply `updateFilePath` for each pair in order. -/
def handleDirRename (now : Nat) (svc : NotesService) (oldPath newPath : String) :
    NotesService × List NotesChangeEvent :=
  (dirRenameUpdates svc oldPath newPath).foldl (renameStep now) (svc, [])

end NotesFileTracker

/-! Concrete scenario inputs used by the claim theorems, their witnesses and
counterexamples. -/

/-- A concrete stand-in fingerprint used by closed counterexamples (the
development is otherwise parametric in `hashFn`). -/
def exHash : String → String := fun s => strCat "#" s

/-- The note of the spec's running example: anchored at line 1 with content
`"NOTE_LINE"`. -/
def noteA : Note :=
  { id := "a", filePath := "f", lineNumber := 1, lineContent := "NOTE_LINE",
    lineContentHash := "#NOTE_LINE", surroundingContext := ⟨none, none⟩,
    text := "note text", category := .note, status := .active,
    createdAt := 0, updatedAt := 0 }

/-- The document of the spec's running example after inserting one line at
line 0. -/
def docC1 : List String := ["w", "x", "NOTE_LINE", "y"]

/-- The edit of the spec's running example: insert one line at line 0. -/
def chgC1 : NotesLineTracker.ChangeRange := ⟨0, 0, "w\n"⟩

/-- The store of the spec's running example. -/
def svcC1 : NotesService := ⟨[noteA]⟩

/-- The derived range info of `chgC1` (`lineDelta = +1`). -/
def ciC1 : NotesLineTracker.ChangeInfo := NotesLineTracker.mkChangeInfo chgC1

/-- The example note re-anchored at line `k` (the copies the range loop pushes
into fresh buckets). -/
def noteAt (k : Int) : Note := { noteA with lineNumber := k }

/-- `n` exhausted buckets `1, 2, …, n`, all emptied by the shifting loop. -/
def mEmpties (n : Nat) : NotesLineTracker.LineMap :=
  (List.range n).map (fun j => (((j : Nat) : Int) + 1, ([] : List Note)))

/-- The live line map after the example loop has shifted the note `n` times:
emptied buckets `1..n` followed by the note in bucket `n + 1`. -/
def mkMapC1 (n : Nat) : NotesLineTracker.LineMap :=
  mEmpties n ++ [(((n : Nat) : Int) + 1, [noteAt (((n : Nat) : Int) + 1)])]

/-- The whole loop state after the example loop has visited `n` entries. -/
def stateC1 : Nat → NotesLineTracker.LoopState
  | 0 => ⟨mkMapC1 0, [], [], []⟩
  | n + 1 => ⟨mkMapC1 (n + 1), [], [], [⟨"a", ((n : Nat) : Int) + 2, false⟩]⟩

/-- Test-fixture constructor: a note whose stored hash is consistent with
`exHash`. -/
def mkNote (id fp : String) (ln : Int) (lc : String) (st : NoteStatus) : Note :=
  ⟨id, fp, ln, lc, strCat "#" lc, ⟨none, none⟩, "t", .note, st, 0, 0⟩

/-- Store of the C4 counterexample: one note at line 5 of `"f"`. -/
def svcC4 : NotesService := ⟨[mkNote "n" "f" 5 "L5" .active]⟩

/-- Pure deletion of lines 3..5 (processed second in the batch). -/
def chgC4a : NotesLineTracker.ChangeRange := ⟨3, 5, ""⟩

/-- Complex edit covering line 5 (higher start line, processed first). -/
def chgC4b : NotesLineTracker.ChangeRange := ⟨5, 6, "x\ny"⟩

/-- Store of the C4 witness: one note at line 1. -/
def svcC4w : NotesService := ⟨[mkNote "a" "f" 1 "M" .active, mkNote "b" "f" 0 "Z" .active]⟩

/-- Store of the C5 counterexample: a note whose tracked line 5 is beyond the
one-line document. -/
def svcC5 : NotesService := ⟨[mkNote "a" "f" 5 "L" .active]⟩

/-- Store of the C6 counterexample: an orphaned note at line 3. -/
def svcC6 : NotesService := ⟨[mkNote "a" "f" 3 "L" .orphaned]⟩

/-- Store of the C6 witness: an orphaned note at line 0. -/
def svcC6w : NotesService := ⟨[mkNote "a" "f" 0 "Z" .orphaned]⟩

/-- Store of the C8 counterexample: two notes covered by one complex edit. -/
def svcC8 : NotesService := ⟨[mkNote "p" "f" 0 "A" .active, mkNote "q" "f" 1 "B" .active]⟩

/-- Store of the C9 counterexample: notes at `/a/c` and `/a/z/c`. -/
def svcC9 : NotesService := ⟨[mkNote "n1" "/a/c" 0 "X" .active, mkNote "n2" "/a/z/c" 0 "Y" .active]⟩

/-- Store of the C9 witness (the spec's own example): notes at `/a/b/x.ts`
and `/a/ab/x.ts`. -/
def svcC9w : NotesService :=
  ⟨[mkNote "n1" "/a/b/x.ts" 0 "X" .active, mkNote "n2" "/a/ab/x.ts" 0 "Y" .active]⟩

/-- A note anchored on content `"b"` with no recorded context, used to witness
the relocation-resolver claim. -/
def noteW : Note :=
  { id := "w", filePath := "f", lineNumber := 5, lineContent := "b",
    lineContentHash := "#b", surroundingContext := ⟨none, none⟩,
    text := "t", category := .note, status := .active, createdAt := 0, updatedAt := 0 }

/-- No entry of the map carries key `k`. -/
def keyNotIn (k : Int) (m : NotesLineTracker.LineMap) : Prop :=
  ∀ e ∈ m, e.1 ≠ k

/-- The map's keys are pairwise distinct (an invariant of every JavaScript
`Map` entry list). -/
def keysNodup (m : NotesLineTracker.LineMap) : Prop :=
  (m.map Prod.fst).Nodup

/-- Invariant for the orphan-terminality claim: the tracked note is in none of
the outcome accumulators and all its occurrences in the live map sit at its
own line. -/
def untouched (note : Note) (s : NotesLineTracker.LoopState) : Prop :=
  note.id ∉ s.toDelete ∧ note.id ∉ s.toOrphan ∧
  (∀ u ∈ s.toUpdate, u.id ≠ note.id) ∧
  (∀ e ∈ s.m, ∀ x ∈ e.2, x.id = note.id → e.1 = note.lineNumber)

/-- Invariant for the pure-deletion claim, across the ranges of a batch: the
map's keys are distinct, the note is not marked for orphaning, every copy of
the note in the live map sits in a bucket keyed by its own line, and the note
is either already marked for deletion or still present in the bucket keyed by
its line. -/
def pendingDel (note : Note) (s : NotesLineTracker.LoopState) : Prop :=
  keysNodup s.m ∧ note.id ∉ s.toOrphan ∧
  (∀ e ∈ s.m, ∀ x ∈ e.2, x.id = note.id → e.1 = note.lineNumber) ∧
  (note.id ∈ s.toDelete ∨
    ∃ j b, s.m.get? j = some (note.lineNumber, b) ∧ ∃ x ∈ b, x.id = note.id)

/-- The cumulative effect of the per-path `updateFilePath` calls of a
directory rename, after the sources in `ps` have been processed. -/
def renApply (now : Nat) (oldPath newPath : String) (ps : List String) (n : Note) : Note :=
  if NotesFileTracker.affectedPath oldPath n.filePath = true ∧ n.filePath ∈ ps then
    { n with
      filePath := NotesFileTracker.renameTarget oldPath newPath n.filePath
      updatedAt := now }
  else n

/-! Generic lemmas about the association-list model of `Map<number, Note[]>`. -/

section MapLemmas

open NotesLineTracker

theorem mapSet_of_keyNotIn {k : Int} {m : LineMap} (v : List Note) (h : keyNotIn k m) :
    mapSet m k v = m ++ [(k, v)] := by
  induction m with
  | nil => rfl
  | cons e t ih =>
    have he : e.1 ≠ k := h e (List.mem_cons_self e t)
    simp only [mapSet, List.cons_append]
    rw [if_neg (by simpa using he)]
    rw [ih (fun x hx => h x (List.mem_cons_of_mem e hx))]

theorem mapGet_of_keyNotIn {k : Int} {m : LineMap} (h : keyNotIn k m) :
    mapGet m k = none := by
  have : m.find? (fun e => e.1 == k) = none := by
    rw [List.find?_eq_none]
    intro e he
    simpa using h e he
  simp [mapGet, this]

theorem mapGet_append_of_keyNotIn {k : Int} {l t : LineMap} {b : List Note}
    (h : keyNotIn k l) : mapGet (l ++ (k, b) :: t) k = some b := by
  induction l with
  | nil => simp [mapGet, List.find?]
  | cons e l ih =>
    have he : e.1 ≠ k := h e (List.mem_cons_self e l)
    have ih' := ih (fun x hx => h x (List.mem_cons_of_mem e hx))
    simp only [mapGet, List.cons_append, List.find?] at ih' ⊢
    rw [show (e.1 == k) = false by simpa using he]
    exact ih'

theorem mapSet_append_of_keyNotIn {k : Int} {l t : LineMap} {b : List Note}
    (v : List Note) (h : keyNotIn k l) :
    mapSet (l ++ (k, b) :: t) k v = l ++ (k, v) :: t := by
  induction l with
  | nil => simp [mapSet]
  | cons e l ih =>
    have he : e.1 ≠ k := h e (List.mem_cons_self e l)
    simp only [List.cons_append, mapSet]
    rw [if_neg (by simpa using he)]
    exact congrArg (List.cons e) (ih (fun x hx => h x (List.mem_cons_of_mem e hx)))

theorem get_append_of_length {α : Type} (l : List α) (x : α) (n : Nat) (hn : l.length = n)
    (h : n < (l ++ [x]).length) : (l ++ [x]).get ⟨n, h⟩ = x := by
  subst hn
  induction l with
  | nil => rfl
  | cons a t ih =>
    have h' : t.length < (t ++ [x]).length := by simp
    exact ih h'

end MapLemmas

/-! Branch equations for `processNote`, used by every proof about the range
loop. -/

section ProcessNoteBranches

open NotesLineTracker

theorem processNote_skip (ci : ChangeInfo) (k : Int) (x : Note) (s : LoopState)
    (h1 : x.id ∈ s.toDelete ∨ x.id ∈ s.toOrphan) :
    processNote ci k x s = s := by
  simp only [processNote, if_pos h1]

theorem processNote_inRange_pure (ci : ChangeInfo) (k : Int) (x : Note) (s : LoopState)
    (h1 : ¬ (x.id ∈ s.toDelete ∨ x.id ∈ s.toOrphan))
    (h2 : ci.startLine ≤ k ∧ k ≤ ci.endLine)
    (h3 : ci.isPureDeletion = true) :
    processNote ci k x s = { s with toDelete := s.toDelete ++ [x.id] } := by
  simp only [processNote, if_neg h1, if_pos h2, if_pos h3]

theorem processNote_inRange_single (ci : ChangeInfo) (k : Int) (x : Note) (s : LoopState)
    (h1 : ¬ (x.id ∈ s.toDelete ∨ x.id ∈ s.toOrphan))
    (h2 : ci.startLine ≤ k ∧ k ≤ ci.endLine)
    (h3 : ci.isPureDeletion = false)
    (h4 : ci.isSingleLineEdit = true) :
    processNote ci k x s = { s with toUpdate := s.toUpdate ++ [PendingUpdate.mk x.id k true] } := by
  simp only [processNote, if_neg h1, if_pos h2, h3, h4]
  simp

theorem processNote_inRange_complex (ci : ChangeInfo) (k : Int) (x : Note) (s : LoopState)
    (h1 : ¬ (x.id ∈ s.toDelete ∨ x.id ∈ s.toOrphan))
    (h2 : ci.startLine ≤ k ∧ k ≤ ci.endLine)
    (h3 : ci.isPureDeletion = false)
    (h4 : ci.isSingleLineEdit = false) :
    processNote ci k x s = { s with toOrphan := s.toOrphan ++ [x.id] } := by
  simp only [processNote, if_neg h1, if_pos h2, h3, h4]
  simp

theorem processNote_shift (ci : ChangeInfo) (k : Int) (x : Note) (s : LoopState)
    (h1 : ¬ (x.id ∈ s.toDelete ∨ x.id ∈ s.toOrphan))
    (h2 : ¬ (ci.startLine ≤ k ∧ k ≤ ci.endLine))
    (h3 : ci.endLine < k) :
    processNote ci k x s =
      { m := mapSet (mapSet s.m k (((mapGet s.m k).getD []).filter (fun n => !(n.id == x.id))))
               (k + ci.lineDelta)
               (((mapGet (mapSet s.m k (((mapGet s.m k).getD []).filter (fun n => !(n.id == x.id))))
                   (k + ci.lineDelta)).getD []) ++ [{ x with lineNumber := k + ci.lineDelta }])
        toDelete := s.toDelete
        toOrphan := s.toOrphan
        toUpdate :=
          match s.toUpdate.find? (fun u => u.id == x.id) with
          | some _ => bumpFirst s.toUpdate x.id ci.lineDelta
          | none => s.toUpdate ++ [PendingUpdate.mk x.id (k + ci.lineDelta) false] } := by
  simp only [processNote, if_neg h1, if_neg h2, if_pos h3]
  cases hf : s.toUpdate.find? (fun u => u.id == x.id) <;> simp [hf]

theorem processNote_noop (ci : ChangeInfo) (k : Int) (x : Note) (s : LoopState)
    (h1 : ¬ (x.id ∈ s.toDelete ∨ x.id ∈ s.toOrphan))
    (h2 : ¬ (ci.startLine ≤ k ∧ k ≤ ci.endLine))
    (h3 : ¬ ci.endLine < k) :
    processNote ci k x s = s := by
  simp only [processNote, if_neg h1, if_neg h2, if_neg h3]

end ProcessNoteBranches

/-! The shifting loop of `processChanges` on the spec's running example:
state evolution lemmas and divergence. -/

section NontermC1

open NotesLineTracker

theorem length_mEmpties (n : Nat) : (mEmpties n).length = n := by
  simp [mEmpties]

theorem keyNotIn_mEmpties {n : Nat} {k : Int} (h : (n : Int) < k) :
    keyNotIn k (mEmpties n) := by
  intro e he
  simp only [mEmpties, List.mem_map, List.mem_range] at he
  obtain ⟨j, hj, rfl⟩ := he
  simp only [ne_eq]
  intro hk
  omega

theorem mEmpties_succ (n : Nat) :
    mEmpties (n + 1) = mEmpties n ++ [(((n : Nat) : Int) + 1, ([] : List Note))] := by
  simp [mEmpties, List.range_succ]

theorem length_mkMapC1 (n : Nat) : (mkMapC1 n).length = n + 1 := by
  simp [mkMapC1, length_mEmpties]

theorem ciC1_fields :
    ciC1.startLine = 0 ∧ ciC1.endLine = 0 ∧ ciC1.lineDelta = 1 ∧
    ciC1.isPureDeletion = false ∧ ciC1.isSingleLineEdit = false := by
  refine ⟨rfl, rfl, by decide, by decide, by decide⟩

theorem stateC1_map (n : Nat) : (stateC1 n).m = mkMapC1 n := by
  cases n <;> rfl

theorem stateC1_get (n : Nat) (h : n < (stateC1 n).m.length) :
    (stateC1 n).m.get ⟨n, h⟩ =
      (((n : Nat) : Int) + 1, [noteAt (((n : Nat) : Int) + 1)]) := by
  cases n with
  | zero => rfl
  | succ m =>
    exact get_append_of_length _ _ _ (length_mEmpties (m + 1)) _

theorem stepC1 (n : Nat) :
    processBucket ciC1 (((n : Nat) : Int) + 1) [noteAt (((n : Nat) : Int) + 1)] (stateC1 n) =
      stateC1 (n + 1) := by
  cases n with
  | zero => decide
  | succ m =>
    have hdelta : ciC1.lineDelta = 1 := by decide
    have hid : (noteAt (((m + 1 : Nat) : Int) + 1)).id = "a" := rfl
    show processNote ciC1 (((m + 1 : Nat) : Int) + 1) (noteAt (((m + 1 : Nat) : Int) + 1))
        (stateC1 (m + 1)) = stateC1 (m + 2)
    rw [processNote_shift ciC1 _ _ _
      (by
        rw [hid]
        show ¬ ("a" ∈ ([] : List String) ∨ "a" ∈ ([] : List String))
        simp)
      (by
        show ¬ (ciC1.startLine ≤ (((m + 1 : Nat) : Int) + 1) ∧ (((m + 1 : Nat) : Int) + 1) ≤ ciC1.endLine)
        rw [show ciC1.startLine = (0 : Int) from rfl, show ciC1.endLine = (0 : Int) from rfl]
        push_cast
        omega)
      (by
        show ciC1.endLine < (((m + 1 : Nat) : Int) + 1)
        rw [show ciC1.endLine = (0 : Int) from rfl]
        push_cast
        omega)]
    have hfind : ((stateC1 (m + 1)).toUpdate.find?
        (fun u => u.id == (noteAt (((m + 1 : Nat) : Int) + 1)).id)) =
        some (PendingUpdate.mk "a" (((m : Nat) : Int) + 2) false) := rfl
    rw [hfind]
    have hups : bumpFirst (stateC1 (m + 1)).toUpdate (noteAt (((m + 1 : Nat) : Int) + 1)).id
        ciC1.lineDelta = [PendingUpdate.mk "a" (((m + 1 : Nat) : Int) + 2) false] := by
      rw [hid, hdelta]
      show [PendingUpdate.mk "a" ((((m : Nat) : Int) + 2) + 1) false] =
        [PendingUpdate.mk "a" (((m + 1 : Nat) : Int) + 2) false]
      have hc : (((m : Nat) : Int) + 2) + 1 = ((m + 1 : Nat) : Int) + 2 := by push_cast; ring
      rw [hc]
    have hni1 : keyNotIn (((m + 1 : Nat) : Int) + 1) (mEmpties (m + 1)) :=
      keyNotIn_mEmpties (by push_cast; omega)
    have hsm : (stateC1 (m + 1)).m =
        mEmpties (m + 1) ++ [(((m + 1 : Nat) : Int) + 1, [noteAt (((m + 1 : Nat) : Int) + 1)])] := rfl
    have hget1 : mapGet (stateC1 (m + 1)).m (((m + 1 : Nat) : Int) + 1) =
        some [noteAt (((m + 1 : Nat) : Int) + 1)] := by
      rw [hsm]
      exact mapGet_append_of_keyNotIn hni1
    have hfil : (([noteAt (((m + 1 : Nat) : Int) + 1)]).filter
        (fun n => !(n.id == (noteAt (((m + 1 : Nat) : Int) + 1)).id))) = [] := by
      simp [List.filter]
    have hm1 : mapSet (stateC1 (m + 1)).m (((m + 1 : Nat) : Int) + 1)
        (((mapGet (stateC1 (m + 1)).m (((m + 1 : Nat) : Int) + 1)).getD []).filter
          (fun n => !(n.id == (noteAt (((m + 1 : Nat) : Int) + 1)).id))) = mEmpties (m + 2) := by
      rw [hget1, Option.getD_some, hfil, hsm]
      rw [mapSet_append_of_keyNotIn _ hni1, mEmpties_succ (m + 1)]
    have hnewL : (((m + 1 : Nat) : Int) + 1) + ciC1.lineDelta = ((m + 2 : Nat) : Int) + 1 := by
      rw [hdelta]; push_cast; ring
    have hni2 : keyNotIn (((m + 2 : Nat) : Int) + 1) (mEmpties (m + 2)) :=
      keyNotIn_mEmpties (by push_cast; omega)
    have hget2 : mapGet (mEmpties (m + 2)) (((m + 2 : Nat) : Int) + 1) = none :=
      mapGet_of_keyNotIn hni2
    have hx : ({ noteAt (((m + 1 : Nat) : Int) + 1) with lineNumber := ((m + 2 : Nat) : Int) + 1 }) =
        noteAt (((m + 2 : Nat) : Int) + 1) := rfl
    rw [hm1, hups, hnewL, hget2, hx]
    rw [mapSet_of_keyNotIn _ hni2]
    show ({ m := mkMapC1 (m + 2), toDelete := (stateC1 (m + 1)).toDelete,
            toOrphan := (stateC1 (m + 1)).toOrphan,
            toUpdate := [PendingUpdate.mk "a" (((m + 1 : Nat) : Int) + 2) false] } : LoopState) =
      stateC1 (m + 2)
    rfl

theorem loopC1 (fuel : Nat) : ∀ n : Nat, processEntriesFrom ciC1 fuel n (stateC1 n) = none := by
  induction fuel with
  | zero => intro n; rfl
  | succ f ih =>
    intro n
    have hlen : n < (stateC1 n).m.length := by
      rw [stateC1_map, length_mkMapC1]
      omega
    have hget := stateC1_get n hlen
    have hbody : processEntriesFrom ciC1 (f + 1) n (stateC1 n) =
        processEntriesFrom ciC1 f (n + 1)
          (processBucket ciC1 ((stateC1 n).m.get ⟨n, hlen⟩).1 ((stateC1 n).m.get ⟨n, hlen⟩).2
            (stateC1 n)) := by
      rw [processEntriesFrom]
      rw [dif_pos hlen]
    rw [hbody, hget]
    show processEntriesFrom ciC1 f (n + 1)
      (processBucket ciC1 (((n : Nat) : Int) + 1) [noteAt (((n : Nat) : Int) + 1)] (stateC1 n)) = none
    rw [stepC1 n]
    exact ih (n + 1)

theorem runChangesC1 (fuel : Nat) :
    runChanges fuel [chgC1] (stateC1 0) = none := by
  show (match processChange fuel chgC1 (stateC1 0) with
    | none => none
    | some s' => runChanges fuel [] s') = none
  have h : processChange fuel chgC1 (stateC1 0) = none := by
    show processEntriesFrom (mkChangeInfo chgC1) fuel 0 (stateC1 0) = none
    exact loopC1 fuel 0
  rw [h]

end NontermC1

/-- Claim C1: the spec's shift invariant and its example scenario — document
`["x","NOTE_LINE","y"]` with a note at line 1, insert one line at line 0 —
should end with the note at `lineNumber = 2`, content and status unchanged.
The code instead never finishes this reconciliation: the shifted note is
moved into a fresh bucket of the live map, which the `Map` iterator of the
range loop then visits, shifting the note again, for ever.  For every fuel
bound the loop is still running, so no update is ever applied. -/
theorem claim_c1_shift_example_diverges (hashFn : String → String) (now fuel : Nat) :
    NotesLineTracker.processChanges hashFn now fuel svcC1 "f" docC1 [chgC1] = none := by
  have hrc : NotesLineTracker.runChanges fuel (NotesLineTracker.sortChanges [chgC1])
      ⟨NotesLineTracker.seedMap (NotesService.getByFile svcC1 "f"), [], [], []⟩ = none := by
    have h1 : NotesLineTracker.sortChanges [chgC1] = [chgC1] := rfl
    have h2 : (⟨NotesLineTracker.seedMap (NotesService.getByFile svcC1 "f"), [], [], []⟩ :
        NotesLineTracker.LoopState) = stateC1 0 := rfl
    rw [h1, h2]
    exact runChangesC1 fuel
  simp only [NotesLineTracker.processChanges, List.isEmpty_cons, Bool.false_eq_true,
    if_false, hrc]

/-- Claim C2: reconciliation of a finite batch against a finite set of notes
is claimed to terminate with work bounded by `notes × ranges`.  Refuted: with
one note (at line 1) and one range (insert one line at line 0) the per-range
loop over the live line-number map never terminates — shifted notes are put
into fresh buckets that the live iterator visits again — so no fuel bound,
however large, completes it. -/
theorem claim_c2_range_loop_unbounded (fuel : Nat) :
    NotesLineTracker.processEntriesFrom ciC1 fuel 0
      ⟨NotesLineTracker.seedMap (NotesService.getByFile svcC1 "f"), [], [], []⟩ = none := by
  have h2 : (⟨NotesLineTracker.seedMap (NotesService.getByFile svcC1 "f"), [], [], []⟩ :
      NotesLineTracker.LoopState) = stateC1 0 := rfl
  rw [h2]
  exact loopC1 fuel 0

/-! Correctness of the exact-content scan of `findNoteLocation`. -/

section RelocationC3

open NotesLineTracker

theorem scanExact_some_aux (doc : List String) (target : String) :
    ∀ n i r, scanExact doc target n i = some r →
      r.2 = target ∧ i ≤ r.1 ∧ doc.get? r.1 = some target ∧
      ∀ k, i ≤ k → k < r.1 → doc.get? k ≠ some target := by
  intro n
  induction n with
  | zero =>
    intro i r hscan
    exact absurd hscan (by simp [scanExact])
  | succ n ih =>
    intro i r hscan
    by_cases h : i < doc.length
    · rw [scanExact, dif_pos h] at hscan
      by_cases heq : (doc.get ⟨i, h⟩ == target) = true
      · rw [if_pos heq] at hscan
        have hr : r = (i, doc.get ⟨i, h⟩) := by
          cases hscan
          rfl
        have htgt : doc.get ⟨i, h⟩ = target := by simpa using heq
        subst hr
        refine ⟨htgt, Nat.le_refl i, ?_, ?_⟩
        · rw [List.get?_eq_get h, htgt]
        · intro k hk1 hk2
          omega
      · rw [if_neg heq] at hscan
        obtain ⟨h1, h2, h3, h4⟩ := ih (i + 1) r hscan
        refine ⟨h1, by omega, h3, ?_⟩
        intro k hk1 hk2
        by_cases hki : k = i
        · subst hki
          rw [List.get?_eq_get h]
          intro hcon
          apply heq
          simp only [beq_iff_eq]
          exact Option.some.inj hcon
        · exact h4 k (by omega) hk2
    · rw [scanExact, dif_neg h] at hscan
      exact absurd hscan (by simp)

theorem scanExact_none_aux (doc : List String) (target : String) :
    ∀ n i, doc.length - i ≤ n → scanExact doc target n i = none →
      ∀ k, i ≤ k → doc.get? k ≠ some target := by
  intro n
  induction n with
  | zero =>
    intro i hle _ k hk
    have : doc.length ≤ k := by omega
    rw [List.get?_eq_none.2 this]
    simp
  | succ n ih =>
    intro i hle hscan k hk
    by_cases h : i < doc.length
    · rw [scanExact, dif_pos h] at hscan
      by_cases heq : (doc.get ⟨i, h⟩ == target) = true
      · rw [if_pos heq] at hscan
        exact absurd hscan (by simp)
      · rw [if_neg heq] at hscan
        by_cases hki : k = i
        · subst hki
          rw [List.get?_eq_get h]
          intro hcon
          apply heq
          simp only [beq_iff_eq]
          exact Option.some.inj hcon
        · exact ih (i + 1) (by omega) hscan k (by omega)
    · have : doc.length ≤ k := by omega
      rw [List.get?_eq_none.2 this]
      simp

end RelocationC3

/-- Claim C3: the relocation resolver (i) returns the lowest-numbered line
whose text equals the note's `lineContent` verbatim whenever one exists,
(ii) attempts a context match only when no exact match exists and some
surrounding context was recorded — in particular with no recorded context and
no exact match it fails — and (iii) on failure the reconciler's verification
step produces exactly a `status := orphaned` update whose application leaves
`lineNumber`, `lineContent` and `surroundingContext` untouched. -/
theorem claim_c3_relocation_resolver (hashFn : String → String) (now : Nat)
    (doc : List String) (note : Note) :
    (∀ i0, doc.get? i0 = some note.lineContent →
      ∃ j : Nat, NotesLineTracker.findNoteLocation doc note =
          some ⟨(j : Int), note.lineContent, NotesLineTracker.getSurroundingContext doc (j : Int)⟩ ∧
        doc.get? j = some note.lineContent ∧
        ∀ k, k < j → doc.get? k ≠ some note.lineContent) ∧
    (note.surroundingContext.lineBefore = none → note.surroundingContext.lineAfter = none →
      (∀ k, doc.get? k ≠ some note.lineContent) →
      NotesLineTracker.findNoteLocation doc note = none) ∧
    (∀ (svc : NotesService) (u : NotesLineTracker.PendingUpdate) (cur : String),
      NotesLineTracker.findNoteLocation doc note = none →
      svc.getById u.id = some note →
      u.needsVerification = true →
      NotesLineTracker.getLineContent doc u.lineNumber = some cur →
      note.lineContentHash ≠ hashFn cur →
      NotesLineTracker.verifyStep hashFn doc svc u = some (u.id, { status := some .orphaned }) ∧
        NotesService.applyOptions hashFn now note { status := some .orphaned } =
          { note with status := .orphaned, updatedAt := now }) := by
  refine ⟨?_, ?_, ?_⟩
  · intro i0 hi0
    cases hs : NotesLineTracker.scanExact doc note.lineContent doc.length 0 with
    | none =>
      exact absurd hi0 (scanExact_none_aux doc note.lineContent doc.length 0 (by omega) hs i0 (by omega))
    | some r =>
      obtain ⟨h1, _, h3, h4⟩ :=
        scanExact_some_aux doc note.lineContent doc.length 0 r hs
      refine ⟨r.1, ?_, h3, fun k hk => h4 k (by omega) hk⟩
      simp only [NotesLineTracker.findNoteLocation, hs, h1]
  · intro hb ha hnone
    cases hs : NotesLineTracker.scanExact doc note.lineContent doc.length 0 with
    | none =>
      simp only [NotesLineTracker.findNoteLocation, hs, hb, ha]
      simp [truthyStr]
    | some r =>
      obtain ⟨_, _, h3, _⟩ :=
        scanExact_some_aux doc note.lineContent doc.length 0 r hs
      exact absurd h3 (hnone r.1)
  · intro svc u cur hfail hget hnv hline hhash
    constructor
    · have hbeq : (note.lineContentHash == hashFn cur) = false := by
        simpa using hhash
      simp only [NotesLineTracker.verifyStep, hget, hnv, hline, hbeq, hfail]
      simp
    · simp [NotesService.applyOptions, truthyStr]

/-- Witness for claim C3 at concrete inputs: exact match in `["a","b","c"]`
finds line 1; on `["z"]` resolution fails and the verification step orphans
the note, leaving its fields untouched. -/
theorem claim_c3_relocation_resolver_witness :
    (∃ j : Nat, NotesLineTracker.findNoteLocation ["a", "b", "c"] noteW =
        some ⟨(j : Int), noteW.lineContent, NotesLineTracker.getSurroundingContext ["a", "b", "c"] (j : Int)⟩ ∧
      (["a", "b", "c"] : List String).get? j = some noteW.lineContent ∧
      ∀ k, k < j → (["a", "b", "c"] : List String).get? k ≠ some noteW.lineContent) ∧
    (NotesLineTracker.verifyStep exHash ["z"] ⟨[noteW]⟩ ⟨"w", 0, true⟩ =
        some ("w", { status := some .orphaned }) ∧
      NotesService.applyOptions exHash 7 noteW { status := some .orphaned } =
        { noteW with status := .orphaned, updatedAt := 7 }) :=
  ⟨(claim_c3_relocation_resolver exHash 7 ["a", "b", "c"] noteW).1 1 (by decide),
   (claim_c3_relocation_resolver exHash 7 ["z"] noteW).2.2 ⟨[noteW]⟩ ⟨"w", 0, true⟩ "z"
     (by decide) (by decide) rfl (by decide) (by decide)⟩

/-- Counterexample to claim C5: a verification-marked note (single-line edit
at its line 5) whose line is beyond the one-line document is NOT orphaned —
the whole reconciliation completes leaving the store untouched and the note
still `active`, contradicting the claimed transition to `orphaned`. -/
theorem claim_c5_cex :
    NotesLineTracker.processChanges exHash 1 50 svcC5 "f" ["w"] [⟨5, 5, "Q"⟩] =
      some (svcC5, []) := by
  decide

/-- Claim C5 amended: a note marked for content verification whose tracked
line number is at or beyond the document's line count is silently skipped by
the verification phase — it contributes no update at all (so it keeps its
fields and stays `active` rather than being orphaned); no exception occurs
(the embedding is total). -/
theorem claim_c5_oob_verification_skipped (hashFn : String → String)
    (doc : List String) (svc : NotesService) (u : NotesLineTracker.PendingUpdate)
    (hnv : u.needsVerification = true)
    (hoob : (doc.length : Int) ≤ u.lineNumber) :
    NotesLineTracker.verifyStep hashFn doc svc u = none := by
  cases hget : svc.getById u.id with
  | none => simp [NotesLineTracker.verifyStep, hget]
  | some note =>
    have hlc : NotesLineTracker.getLineContent doc u.lineNumber = none := by
      simp only [NotesLineTracker.getLineContent]
      rw [if_pos (Or.inr hoob)]
    simp [NotesLineTracker.verifyStep, hget, hnv, hlc]

/-- Witness for the amended C5 at a concrete input. -/
theorem claim_c5_oob_verification_skipped_witness :
    NotesLineTracker.verifyStep exHash ["w"] svcC5 ⟨"a", 5, true⟩ = none :=
  claim_c5_oob_verification_skipped exHash ["w"] svcC5 ⟨"a", 5, true⟩ rfl (by decide)

/-- Claim C7: the store is claimed to recompute `lineContentHash` whenever a
`lineContent` value — including the empty string — is supplied to `update`.
Refuted on the code: `if (options.lineContent)` is false for `""`, so updating
a note's content to the empty string keeps the stale hash of the old content,
breaking the fingerprint invariant the tracker's comparisons rely on. -/
theorem claim_c7_empty_content_keeps_stale_hash (hashFn : String → String)
    (now1 now2 : Nat) (hne : hashFn "x" ≠ hashFn "") :
    ∃ n : Note,
      (NotesService.update hashFn now2
          (NotesService.create hashFn now1 "a" ⟨[]⟩
            { filePath := "f", lineNumber := 0, lineContent := "x", text := "t" }).2.1
          "a" { lineContent := some "" }).1 = some n ∧
      n.lineContent = "" ∧ n.lineContentHash = hashFn "x" ∧
      n.lineContentHash ≠ hashFn n.lineContent := by
  refine ⟨_, rfl, rfl, rfl, hne⟩

/-- Witness for C7 with a concrete fingerprint function. -/
theorem claim_c7_empty_content_keeps_stale_hash_witness :
    ∃ n : Note,
      (NotesService.update (fun s => s) 1
          (NotesService.create (fun s => s) 0 "a" ⟨[]⟩
            { filePath := "f", lineNumber := 0, lineContent := "x", text := "t" }).2.1
          "a" { lineContent := some "" }).1 = some n ∧
      n.lineContent = "" ∧ n.lineContentHash = (fun s : String => s) "x" ∧
      n.lineContentHash ≠ (fun s : String => s) n.lineContent :=
  claim_c7_empty_content_keeps_stale_hash (fun s => s) 0 1 (by decide)

/-! Counting lemmas for `bulkDelete` (claim C10). -/

section BulkDeleteC10

theorem delNote_length {l : List Note} {id : String}
    (h : (l.find? (fun n => n.id == id)).isSome) :
    (delNote l id).length + 1 = l.length := by
  induction l with
  | nil => simp [List.find?] at h
  | cons x t ih =>
    by_cases hx : (x.id == id) = true
    · simp [delNote, hx]
    · rw [List.find?_cons_of_neg _ (by simpa using hx)] at h
      simp only [delNote, if_neg hx, List.length_cons]
      rw [← ih h]

theorem bulkDeleteStep_count (acc : NotesService × List String × List String) (id : String) :
    (NotesService.bulkDeleteStep acc id).2.1.length +
        (NotesService.bulkDeleteStep acc id).1.notes.length =
      acc.2.1.length + acc.1.notes.length := by
  unfold NotesService.bulkDeleteStep
  cases hget : NotesService.getById acc.1 id with
  | none => rfl
  | some note =>
    simp only
    have hsome : ((acc.1.notes).find? (fun n => n.id == id)).isSome := by
      simp only [NotesService.getById] at hget
      rw [hget]
      rfl
    have := delNote_length hsome
    simp only [List.length_append, List.length_cons, List.length_nil]
    omega

theorem bulkDelete_fold_count (ids : List String) :
    ∀ acc : NotesService × List String × List String,
      (ids.foldl NotesService.bulkDeleteStep acc).2.1.length +
          (ids.foldl NotesService.bulkDeleteStep acc).1.notes.length =
        acc.2.1.length + acc.1.notes.length := by
  induction ids with
  | nil => intro acc; rfl
  | cons id rest ih =>
    intro acc
    rw [List.foldl_cons]
    rw [ih (NotesService.bulkDeleteStep acc id)]
    exact bulkDeleteStep_count acc id

end BulkDeleteC10

/-- Claim C10: for an unknown id, `update` returns `none` and `delete` returns
`false`, both leaving the store untouched and emitting no event (and neither
can throw — the embedding is total); `bulkDelete` silently skips unknown ids
and returns exactly the number of notes actually removed. -/
theorem claim_c10_unknown_id_noops (hashFn : String → String) (now : Nat)
    (svc : NotesService) (id : String) (o : UpdateNoteOptions) (ids : List String)
    (h : svc.getById id = none) :
    NotesService.update hashFn now svc id o = (none, svc, []) ∧
    NotesService.delete svc id = (false, svc, []) ∧
    NotesService.bulkDelete svc (id :: ids) = NotesService.bulkDelete svc ids ∧
    (NotesService.bulkDelete svc ids).1 +
        (NotesService.bulkDelete svc ids).2.1.notes.length = svc.notes.length := by
  refine ⟨?_, ?_, ?_, ?_⟩
  · simp [NotesService.update, h]
  · simp [NotesService.delete, h]
  · have hstep : NotesService.bulkDeleteStep (svc, [], []) id = (svc, [], []) := by
      unfold NotesService.bulkDeleteStep
      rw [h]
    simp only [NotesService.bulkDelete, List.foldl_cons, hstep]
  · have := bulkDelete_fold_count ids (svc, [], [])
    simpa [NotesService.bulkDelete] using this

/-- Witness for C10 on a concrete store: id `"zz"` is unknown. -/
theorem claim_c10_unknown_id_noops_witness :
    NotesService.update exHash 3 svcC5 "zz" { text := some "y" } = (none, svcC5, []) ∧
    NotesService.delete svcC5 "zz" = (false, svcC5, []) ∧
    NotesService.bulkDelete svcC5 ("zz" :: ["a"]) = NotesService.bulkDelete svcC5 ["a"] ∧
    (NotesService.bulkDelete svcC5 ["a"]).1 +
        (NotesService.bulkDelete svcC5 ["a"]).2.1.notes.length = svcC5.notes.length :=
  claim_c10_unknown_id_noops exHash 3 svcC5 "zz" { text := some "y" } ["a"] (by decide)

/-! Lemmas about `setNote` and `markOrphaned` for the orphaning-phase claim. -/

section OrphanEventsC8

theorem find?_setNote (l : List Note) (un : Note) (j : String) :
    (setNote l un).find? (fun x => x.id == j) =
      if (un.id == j) = true then some un else l.find? (fun x => x.id == j) := by
  induction l with
  | nil =>
    by_cases hj : (un.id == j) = true
    · simp [setNote, List.find?, hj]
    · simp [setNote, List.find?, hj]
  | cons x t ih =>
    by_cases hx : (x.id == un.id) = true
    · have hxid : x.id = un.id := by simpa using hx
      simp only [setNote, if_pos hx]
      by_cases hj : (un.id == j) = true
      · simp [List.find?, hj]
      · have hxj : (x.id == j) = false := by
          rw [hxid]
          simpa using hj
        simp [List.find?, hj, hxj]
    · simp only [setNote, if_neg hx]
      by_cases hxj : (x.id == j) = true
      · have h1 : x.id = j := by simpa using hxj
        have h2 : (un.id == j) = false := by
          rw [beq_eq_false_iff_ne]
          intro hc
          apply hx
          rw [h1, hc]
          exact beq_self_eq_true j
        simp [List.find?, hxj, h2]
      · rw [List.find?_cons_of_neg _ (by simpa using hxj)]
        by_cases hj : (un.id == j) = true
        · rw [ih, if_pos hj, if_pos hj]
        · rw [ih, if_neg (by simpa using hj), if_neg (by simpa using hj),
            List.find?_cons_of_neg _ (by simpa using hxj)]

theorem markOrphaned_getById (hashFn : String → String) (now : Nat)
    (svc : NotesService) (id j : String) :
    (((NotesService.markOrphaned hashFn now svc id).2.1).getById j).map Note.filePath =
      (svc.getById j).map Note.filePath ∧
    (((NotesService.markOrphaned hashFn now svc id).2.1).getById j).isSome =
      (svc.getById j).isSome := by
  unfold NotesService.markOrphaned NotesService.update
  cases hget : svc.getById id with
  | none => simp
  | some note =>
    have hnid : note.id = id := by
      have := List.find?_some hget
      simpa using this
    simp only
    have hun : (NotesService.applyOptions hashFn now note { status := some .orphaned }).id = note.id := rfl
    have hup : (NotesService.applyOptions hashFn now note { status := some .orphaned }).filePath =
        note.filePath := rfl
    show ((NotesService.getById
        ⟨setNote svc.notes (NotesService.applyOptions hashFn now note { status := some .orphaned })⟩ j).map
          Note.filePath = (svc.getById j).map Note.filePath) ∧ _
    unfold NotesService.getById
    rw [find?_setNote]
    by_cases hj : ((NotesService.applyOptions hashFn now note { status := some .orphaned }).id == j) = true
    · rw [if_pos hj]
      have hjeq : j = id := by
        rw [hun] at hj
        have hnj : note.id = j := by simpa using hj
        rw [← hnj, hnid]
      have hget' : svc.notes.find? (fun x => x.id == j) = some note := by
        rw [hjeq]
        exact hget
      rw [hget']
      exact ⟨by simp [hup], by simp⟩
    · rw [if_neg hj]
      exact ⟨rfl, rfl⟩

theorem applyOrphans_acc (hashFn : String → String) (now : Nat) (ids : List String) :
    ∀ (svc : NotesService) (evs : List NotesChangeEvent),
      ids.foldl (NotesLineTracker.orphanStep hashFn now) (svc, evs) =
        ((ids.foldl (NotesLineTracker.orphanStep hashFn now) (svc, [])).1,
          evs ++ (ids.foldl (NotesLineTracker.orphanStep hashFn now) (svc, [])).2) := by
  induction ids with
  | nil =>
    intro svc evs
    simp
  | cons id rest ih =>
    intro svc evs
    rw [List.foldl_cons, List.foldl_cons]
    rw [show NotesLineTracker.orphanStep hashFn now (svc, evs) id =
      ((NotesService.markOrphaned hashFn now svc id).2.1,
        evs ++ (NotesService.markOrphaned hashFn now svc id).2.2) from rfl]
    rw [show NotesLineTracker.orphanStep hashFn now (svc, []) id =
      ((NotesService.markOrphaned hashFn now svc id).2.1,
        [] ++ (NotesService.markOrphaned hashFn now svc id).2.2) from rfl]
    rw [ih _ (evs ++ (NotesService.markOrphaned hashFn now svc id).2.2),
      ih _ ([] ++ (NotesService.markOrphaned hashFn now svc id).2.2)]
    simp

/-- The single `updated` event of a successful `markOrphaned`. -/
theorem markOrphaned_events (hashFn : String → String) (now : Nat)
    (svc : NotesService) (id : String) (note : Note) (hget : svc.getById id = some note) :
    (NotesService.markOrphaned hashFn now svc id).2.2 =
      [⟨.updated, [id], [note.filePath]⟩] := by
  unfold NotesService.markOrphaned NotesService.update
  rw [hget]
  rfl

/-- Claim C8, amended: when a reconciliation run orphans its notes, the
orphaning is applied as one individual `update` per note, each emitting its
own single-note `updated` event — `n` events in order, not one aggregate
bulk event. -/
theorem claim_c8_orphan_events_individual (hashFn : String → String) (now : Nat)
    (ids : List String) :
    ∀ svc : NotesService, (∀ id ∈ ids, (svc.getById id).isSome = true) →
      (NotesLineTracker.applyOrphans hashFn now svc ids).2 =
        ids.map (fun id =>
          ⟨.updated, [id], [((svc.getById id).map Note.filePath).getD ""]⟩) := by
  induction ids with
  | nil =>
    intro svc _
    rfl
  | cons id rest ih =>
    intro svc h
    have hid := h id (List.mem_cons_self id rest)
    obtain ⟨note, hnote⟩ := Option.isSome_iff_exists.1 hid
    show (List.foldl (NotesLineTracker.orphanStep hashFn now) (svc, []) (id :: rest)).2 = _
    rw [List.foldl_cons]
    rw [show NotesLineTracker.orphanStep hashFn now (svc, []) id =
      ((NotesService.markOrphaned hashFn now svc id).2.1,
        [] ++ (NotesService.markOrphaned hashFn now svc id).2.2) from rfl]
    rw [applyOrphans_acc]
    have hpres : ∀ j ∈ rest,
        (((NotesService.markOrphaned hashFn now svc id).2.1).getById j).isSome = true := by
      intro j hj
      rw [(markOrphaned_getById hashFn now svc id j).2]
      exact h j (List.mem_cons_of_mem id hj)
    have hrest := ih ((NotesService.markOrphaned hashFn now svc id).2.1) hpres
    show [] ++ (NotesService.markOrphaned hashFn now svc id).2.2 ++
        (NotesLineTracker.applyOrphans hashFn now
          ((NotesService.markOrphaned hashFn now svc id).2.1) rest).2 = _
    rw [hrest, markOrphaned_events hashFn now svc id note hnote]
    rw [List.map_cons, List.nil_append]
    rw [hnote]
    show (⟨.updated, [id], [note.filePath]⟩ : NotesChangeEvent) ::
        (rest.map fun j =>
          (⟨.updated, [j],
            [((((NotesService.markOrphaned hashFn now svc id).2.1).getById j).map Note.filePath).getD ""]⟩ :
            NotesChangeEvent)) = _
    have hmapeq : (rest.map fun j =>
        (⟨.updated, [j],
          [((((NotesService.markOrphaned hashFn now svc id).2.1).getById j).map Note.filePath).getD ""]⟩ :
          NotesChangeEvent)) =
        rest.map fun j =>
          (⟨.updated, [j], [((svc.getById j).map Note.filePath).getD ""]⟩ : NotesChangeEvent) := by
      apply List.map_congr_left
      intro j _
      rw [(markOrphaned_getById hashFn now svc id j).1]
    rw [hmapeq]
    rfl

end OrphanEventsC8

/-- Counterexample to claim C8: one reconciliation run that orphans the two
notes covered by a complex edit emits two individual single-note `updated`
events — not a single aggregate bulk event. -/
theorem claim_c8_cex :
    (NotesLineTracker.processChanges exHash 1 50 svcC8 "f" ["a", "b", "c", "d"]
        [⟨0, 1, "a\nb\nc"⟩]).map (fun r => r.2.map (fun e => (e.type, e.noteIds))) =
      some [(EventType.updated, ["p"]), (EventType.updated, ["q"])] := by
  decide

/-- Witness for the amended C8 at a concrete store with two orphaned ids. -/
theorem claim_c8_orphan_events_individual_witness :
    (NotesLineTracker.applyOrphans exHash 1 svcC8 ["p", "q"]).2 =
      ["p", "q"].map (fun id =>
        ⟨.updated, [id], [((svcC8.getById id).map Note.filePath).getD ""]⟩) :=
  claim_c8_orphan_events_individual exHash 1 ["p", "q"] svcC8 (by decide)

/-! Preservation of `untouched` through the range loop (claim C6). -/

section UntouchedC6

open NotesLineTracker

theorem mapGet_mem {m : LineMap} {k : Int} {b : List Note} (h : mapGet m k = some b) :
    (k, b) ∈ m := by
  unfold mapGet at h
  cases hf : m.find? (fun e => e.1 == k) with
  | none =>
    rw [hf] at h
    simp at h
  | some e =>
    rw [hf] at h
    have h2 : e.2 = b := by simpa using h
    have hmem := List.mem_of_find?_eq_some hf
    have hkey := List.find?_some hf
    have h1 : e.1 = k := by simpa using hkey
    have : e = (k, b) := by
      obtain ⟨e1, e2⟩ := e
      simp only at h1 h2
      rw [h1, h2]
    rw [← this]
    exact hmem

theorem mapSet_mem_cases {m : LineMap} {k : Int} {v : List Note} {e : Int × List Note}
    (h : e ∈ mapSet m k v) : e ∈ m ∨ e = (k, v) := by
  induction m with
  | nil =>
    simp only [mapSet, List.mem_singleton] at h
    exact Or.inr h
  | cons a t ih =>
    simp only [mapSet] at h
    by_cases ha : (a.1 == k) = true
    · rw [if_pos ha] at h
      rcases List.mem_cons.1 h with h1 | h1
      · exact Or.inr h1
      · exact Or.inl (List.mem_cons_of_mem a h1)
    · rw [if_neg ha] at h
      rcases List.mem_cons.1 h with h1 | h1
      · rw [h1]
        exact Or.inl (List.mem_cons_self a t)
      · rcases ih h1 with h2 | h2
        · exact Or.inl (List.mem_cons_of_mem a h2)
        · exact Or.inr h2

theorem inv4_mapSet {note : Note} {m : LineMap} {k : Int} {v : List Note}
    (hm : ∀ e ∈ m, ∀ x ∈ e.2, x.id = note.id → e.1 = note.lineNumber)
    (hv : ∀ x ∈ v, x.id = note.id → k = note.lineNumber) :
    ∀ e ∈ mapSet m k v, ∀ x ∈ e.2, x.id = note.id → e.1 = note.lineNumber := by
  intro e he x hx hid
  rcases mapSet_mem_cases he with h | h
  · exact hm e h x hx hid
  · subst h
    exact hv x hx hid

theorem bumpFirst_ids {l : List PendingUpdate} {id0 : String} {d : Int} {nid : String}
    (h : ∀ u ∈ l, u.id ≠ nid) : ∀ u ∈ bumpFirst l id0 d, u.id ≠ nid := by
  induction l with
  | nil =>
    intro u hu
    simp [bumpFirst] at hu
  | cons a t ih =>
    intro u hu
    simp only [bumpFirst] at hu
    by_cases ha : (a.id == id0) = true
    · rw [if_pos ha] at hu
      rcases List.mem_cons.1 hu with h1 | h1
      · rw [h1]
        exact h a (List.mem_cons_self a t)
      · exact h u (List.mem_cons_of_mem a h1)
    · rw [if_neg ha] at hu
      rcases List.mem_cons.1 hu with h1 | h1
      · rw [h1]
        exact h a (List.mem_cons_self a t)
      · exact ih (fun v hv => h v (List.mem_cons_of_mem a hv)) u h1

theorem processNote_untouched {note : Note} (ci : ChangeInfo) (k : Int) (x : Note)
    (s : LoopState)
    (hbs : note.lineNumber < ci.startLine) (hse : ci.startLine ≤ ci.endLine)
    (hx : x.id = note.id → k = note.lineNumber)
    (hinv : untouched note s) : untouched note (processNote ci k x s) := by
  obtain ⟨h1, h2, h3, h4⟩ := hinv
  by_cases hskip : x.id ∈ s.toDelete ∨ x.id ∈ s.toOrphan
  · rw [processNote_skip ci k x s hskip]
    exact ⟨h1, h2, h3, h4⟩
  · by_cases hin : ci.startLine ≤ k ∧ k ≤ ci.endLine
    · have hxid : x.id ≠ note.id := by
        intro hc
        have hk := hx hc
        rw [hk] at hin
        omega
      cases hpure : ci.isPureDeletion with
      | true =>
        rw [processNote_inRange_pure ci k x s hskip hin hpure]
        refine ⟨?_, h2, h3, h4⟩
        simp only [List.mem_append, List.mem_singleton]
        rintro (hc | hc)
        · exact h1 hc
        · exact hxid hc.symm
      | false =>
        cases hsingle : ci.isSingleLineEdit with
        | true =>
          rw [processNote_inRange_single ci k x s hskip hin hpure hsingle]
          refine ⟨h1, h2, ?_, h4⟩
          intro u hu
          rcases List.mem_append.1 hu with hu | hu
          · exact h3 u hu
          · rcases List.mem_singleton.1 hu with rfl
            exact hxid
        | false =>
          rw [processNote_inRange_complex ci k x s hskip hin hpure hsingle]
          refine ⟨h1, ?_, h3, h4⟩
          simp only [List.mem_append, List.mem_singleton]
          rintro (hc | hc)
          · exact h2 hc
          · exact hxid hc.symm
    · by_cases hshift : ci.endLine < k
      · have hxid : x.id ≠ note.id := by
          intro hc
          have hk := hx hc
          rw [hk] at hshift
          omega
        rw [processNote_shift ci k x s hskip hin hshift]
        have hfv : ∀ y ∈ ((mapGet s.m k).getD []).filter (fun n => !(n.id == x.id)),
            y.id = note.id → k = note.lineNumber := by
          intro y hy hid
          have hy' : y ∈ (mapGet s.m k).getD [] := List.mem_of_mem_filter hy
          cases hmg : mapGet s.m k with
          | none =>
            rw [hmg] at hy'
            simp at hy'
          | some b =>
            rw [hmg] at hy'
            exact h4 (k, b) (mapGet_mem hmg) y hy' hid
        have hm1 : ∀ e ∈ mapSet s.m k (((mapGet s.m k).getD []).filter (fun n => !(n.id == x.id))),
            ∀ y ∈ e.2, y.id = note.id → e.1 = note.lineNumber := inv4_mapSet h4 hfv
        refine ⟨h1, h2, ?_, ?_⟩
        · show ∀ u ∈ (match s.toUpdate.find? (fun u => u.id == x.id) with
            | some _ => bumpFirst s.toUpdate x.id ci.lineDelta
            | none => s.toUpdate ++ [PendingUpdate.mk x.id (k + ci.lineDelta) false]),
            u.id ≠ note.id
          cases hf : s.toUpdate.find? (fun u => u.id == x.id) with
          | some w =>
            simp only
            exact bumpFirst_ids h3
          | none =>
            simp only
            intro u hu
            rcases List.mem_append.1 hu with hu | hu
            · exact h3 u hu
            · rcases List.mem_singleton.1 hu with rfl
              exact hxid
        · show ∀ e ∈ mapSet (mapSet s.m k _) (k + ci.lineDelta) _, ∀ y ∈ e.2, _
          apply inv4_mapSet hm1
          intro y hy hid
          rcases List.mem_append.1 hy with hy | hy
          · cases hmg : mapGet (mapSet s.m k (((mapGet s.m k).getD []).filter
                (fun n => !(n.id == x.id)))) (k + ci.lineDelta) with
            | none =>
              rw [hmg] at hy
              simp at hy
            | some b =>
              rw [hmg] at hy
              exact hm1 (k + ci.lineDelta, b) (mapGet_mem hmg) y hy hid
          · rcases List.mem_singleton.1 hy with rfl
            exact absurd hid hxid
      · rw [processNote_noop ci k x s hskip hin hshift]
        exact ⟨h1, h2, h3, h4⟩

theorem processBucket_untouched {note : Note} (ci : ChangeInfo) (k : Int)
    (hbs : note.lineNumber < ci.startLine) (hse : ci.startLine ≤ ci.endLine) :
    ∀ (bucket : List Note) (s : LoopState),
      (∀ x ∈ bucket, x.id = note.id → k = note.lineNumber) →
      untouched note s → untouched note (processBucket ci k bucket s) := by
  intro bucket
  induction bucket with
  | nil =>
    intro s _ hinv
    exact hinv
  | cons y t ih =>
    intro s hbk hinv
    show untouched note (processBucket ci k t (processNote ci k y s))
    exact ih (processNote ci k y s) (fun x hx => hbk x (List.mem_cons_of_mem y hx))
      (processNote_untouched ci k y s hbs hse (hbk y (List.mem_cons_self y t)) hinv)

theorem processEntriesFrom_untouched {note : Note} (ci : ChangeInfo)
    (hbs : note.lineNumber < ci.startLine) (hse : ci.startLine ≤ ci.endLine) :
    ∀ (fuel i : Nat) (s s' : LoopState), untouched note s →
      processEntriesFrom ci fuel i s = some s' → untouched note s' := by
  intro fuel
  induction fuel with
  | zero =>
    intro i s s' _ h
    exact absurd h (by simp [processEntriesFrom])
  | succ f ih =>
    intro i s s' hinv hrun
    rw [processEntriesFrom] at hrun
    by_cases h : i < s.m.length
    · rw [dif_pos h] at hrun
      refine ih (i + 1) _ s' ?_ hrun
      have he : s.m.get ⟨i, h⟩ ∈ s.m := List.get_mem s.m i h
      exact processBucket_untouched ci (s.m.get ⟨i, h⟩).1 hbs hse (s.m.get ⟨i, h⟩).2 s
        (fun x hx => hinv.2.2.2 (s.m.get ⟨i, h⟩) he x hx) hinv
    · rw [dif_neg h] at hrun
      cases hrun
      exact hinv

theorem runChanges_untouched {note : Note} (fuel : Nat) :
    ∀ (cs : List ChangeRange) (s s' : LoopState),
      (∀ c ∈ cs, note.lineNumber < c.startLine ∧ c.startLine ≤ c.endLine) →
      untouched note s → runChanges fuel cs s = some s' → untouched note s' := by
  intro cs
  induction cs with
  | nil =>
    intro s s' _ hinv h
    cases h
    exact hinv
  | cons c rest ih =>
    intro s s' hc hinv h
    rw [runChanges] at h
    cases hp : processChange fuel c s with
    | none =>
      rw [hp] at h
      exact absurd h (by simp)
    | some s1 =>
      rw [hp] at h
      have hc1 := hc c (List.mem_cons_self c rest)
      have h1 : untouched note s1 :=
        processEntriesFrom_untouched (mkChangeInfo c) hc1.1 hc1.2 fuel 0 s s1 hinv hp
      exact ih s1 s' (fun c' hc' => hc c' (List.mem_cons_of_mem c hc')) h1 h

theorem seedMap_inv (notes : List Note) :
    ∀ e ∈ seedMap notes, ∀ x ∈ e.2, x ∈ notes ∧ e.1 = x.lineNumber := by
  have main : ∀ (l : List Note) (m : LineMap),
      (∀ e ∈ m, ∀ x ∈ e.2, x ∈ notes ∧ e.1 = x.lineNumber) →
      (∀ z ∈ l, z ∈ notes) →
      ∀ e ∈ l.foldl (fun m note =>
          mapSet m note.lineNumber (((mapGet m note.lineNumber).getD []) ++ [note])) m,
        ∀ x ∈ e.2, x ∈ notes ∧ e.1 = x.lineNumber := by
    intro l
    induction l with
    | nil =>
      intro m hm _
      exact hm
    | cons z t ih =>
      intro m hm hl
      rw [List.foldl_cons]
      apply ih
      · intro e he x hx
        rcases mapSet_mem_cases he with h | h
        · exact hm e h x hx
        · subst h
          rcases List.mem_append.1 hx with hx | hx
          · cases hmg : mapGet m z.lineNumber with
            | none =>
              rw [hmg] at hx
              simp at hx
            | some b =>
              rw [hmg] at hx
              exact hm (z.lineNumber, b) (mapGet_mem hmg) x hx
          · rcases List.mem_singleton.1 hx with rfl
            exact ⟨hl x (List.mem_cons_self x t), rfl⟩
      · intro z' hz'
        exact hl z' (List.mem_cons_of_mem z hz')
  intro e he x hx
  exact main notes [] (by simp) (fun z h => h) e he x hx

theorem getById_some_id {svc : NotesService} {id : String} {n : Note}
    (h : svc.getById id = some n) : n.id = id := by
  unfold NotesService.getById at h
  have := List.find?_some h
  simpa using this

theorem applyOptions_id (hashFn : String → String) (now : Nat) (n : Note)
    (o : UpdateNoteOptions) : (NotesService.applyOptions hashFn now n o).id = n.id := by
  unfold NotesService.applyOptions
  by_cases h : truthyStr o.lineContent = true
  · rw [if_pos h]
  · rw [if_neg h]

theorem setNote_mem_of_ne {l : List Note} {x n : Note} (hx : x ∈ l) (hne : x.id ≠ n.id) :
    x ∈ setNote l n := by
  induction l with
  | nil => simp at hx
  | cons a t ih =>
    simp only [setNote]
    by_cases ha : (a.id == n.id) = true
    · rw [if_pos ha]
      rcases List.mem_cons.1 hx with rfl | h
      · exact absurd (by simpa using ha) hne
      · exact List.mem_cons_of_mem n h
    · rw [if_neg ha]
      rcases List.mem_cons.1 hx with rfl | h
      · exact List.mem_cons_self x _
      · exact List.mem_cons_of_mem a (ih h)

theorem delNote_mem_of_ne {l : List Note} {x : Note} {i : String} (hx : x ∈ l)
    (hne : x.id ≠ i) : x ∈ delNote l i := by
  induction l with
  | nil => simp at hx
  | cons a t ih =>
    simp only [delNote]
    by_cases ha : (a.id == i) = true
    · rw [if_pos ha]
      rcases List.mem_cons.1 hx with rfl | h
      · exact absurd (by simpa using ha) hne
      · exact h
    · rw [if_neg ha]
      rcases List.mem_cons.1 hx with rfl | h
      · exact List.mem_cons_self x _
      · exact List.mem_cons_of_mem a (ih h)

theorem update_mem_of_ne (hashFn : String → String) (now : Nat) (svc : NotesService)
    (id : String) (o : UpdateNoteOptions) (note : Note)
    (hmem : note ∈ svc.notes) (hne : note.id ≠ id) :
    note ∈ (NotesService.update hashFn now svc id o).2.1.notes := by
  unfold NotesService.update
  cases hget : svc.getById id with
  | none =>
    exact hmem
  | some n0 =>
    show note ∈ setNote svc.notes (NotesService.applyOptions hashFn now n0 o)
    apply setNote_mem_of_ne hmem
    rw [applyOptions_id, getById_some_id hget]
    exact hne

theorem applyOrphans_mem (hashFn : String → String) (now : Nat) :
    ∀ (ids : List String) (acc : NotesService × List NotesChangeEvent) (note : Note),
      (∀ id ∈ ids, note.id ≠ id) → note ∈ acc.1.notes →
      note ∈ (ids.foldl (orphanStep hashFn now) acc).1.notes := by
  intro ids
  induction ids with
  | nil =>
    intro acc note _ h
    exact h
  | cons id rest ih =>
    intro acc note hne h
    rw [List.foldl_cons]
    apply ih _ note (fun j hj => hne j (List.mem_cons_of_mem id hj))
    show note ∈ (NotesService.markOrphaned hashFn now acc.1 id).2.1.notes
    exact update_mem_of_ne hashFn now acc.1 id _ note h (hne id (List.mem_cons_self id rest))

theorem foldl_bulkDeleteStep_mem (note : Note) :
    ∀ (ids : List String) (acc : NotesService × List String × List String),
      (∀ id ∈ ids, note.id ≠ id) → note ∈ acc.1.notes →
      note ∈ (ids.foldl NotesService.bulkDeleteStep acc).1.notes := by
  intro ids
  induction ids with
  | nil =>
    intro acc _ h
    exact h
  | cons id rest ih =>
    intro acc hne h
    rw [List.foldl_cons]
    apply ih _ (fun j hj => hne j (List.mem_cons_of_mem id hj))
    unfold NotesService.bulkDeleteStep
    cases hget : acc.1.getById id with
    | none =>
      exact h
    | some n0 =>
      exact delNote_mem_of_ne h (hne id (List.mem_cons_self id rest))

theorem foldl_bulkUpdateStep_mem (hashFn : String → String) (now : Nat) (note : Note) :
    ∀ (entries : List (String × UpdateNoteOptions))
      (acc : NotesService × List String × List String),
      (∀ e ∈ entries, e.1 ≠ note.id) → note ∈ acc.1.notes →
      note ∈ (entries.foldl (NotesService.bulkUpdateStep hashFn now) acc).1.notes := by
  intro entries
  induction entries with
  | nil =>
    intro acc _ h
    exact h
  | cons e rest ih =>
    intro acc hne h
    rw [List.foldl_cons]
    apply ih _ (fun j hj => hne j (List.mem_cons_of_mem e hj))
    unfold NotesService.bulkUpdateStep
    cases hget : acc.1.getById e.1 with
    | none =>
      exact h
    | some n0 =>
      show note ∈ setNote acc.1.notes (NotesService.applyOptions hashFn now n0 e.2)
      apply setNote_mem_of_ne h
      rw [applyOptions_id, getById_some_id hget]
      exact fun hc => (hne e (List.mem_cons_self e rest)) hc.symm

theorem verifyStep_id {hashFn : String → String} {doc : List String} {svc : NotesService}
    {u : PendingUpdate} {e : String × UpdateNoteOptions}
    (h : verifyStep hashFn doc svc u = some e) : e.1 = u.id := by
  unfold verifyStep at h
  repeat' split at h
  any_goals
    cases h
    rfl
  all_goals exact absurd h (by simp)

theorem deletePhase_mem (svc : NotesService) (s : LoopState) (note : Note)
    (hmem : note ∈ svc.notes) (hdel : note.id ∉ s.toDelete) :
    note ∈ (deletePhase svc s).1.notes := by
  unfold deletePhase
  by_cases he : s.toDelete.isEmpty
  · rw [if_pos he]
    exact hmem
  · rw [if_neg he]
    show note ∈ (s.toDelete.foldl NotesService.bulkDeleteStep (svc, [], [])).1.notes
    refine foldl_bulkDeleteStep_mem note s.toDelete (svc, [], []) ?_ hmem
    intro id hid hc
    rw [hc] at hdel
    exact hdel hid

theorem updatePhase_mem (hashFn : String → String) (now : Nat) (svc : NotesService)
    (entries : List (String × UpdateNoteOptions)) (note : Note)
    (hmem : note ∈ svc.notes) (hne : ∀ e ∈ entries, e.1 ≠ note.id) :
    note ∈ (updatePhase hashFn now svc entries).1.notes := by
  unfold updatePhase
  by_cases he : entries.isEmpty
  · rw [if_pos he]
    exact hmem
  · rw [if_neg he]
    show note ∈ (entries.foldl (NotesService.bulkUpdateStep hashFn now) (svc, [], [])).1.notes
    exact foldl_bulkUpdateStep_mem hashFn now note entries (svc, [], []) hne hmem

theorem applyOutcomes_mem (hashFn : String → String) (now : Nat) (svc : NotesService)
    (doc : List String) (s : LoopState) (note : Note)
    (hmem : note ∈ svc.notes)
    (hdel : note.id ∉ s.toDelete) (horp : note.id ∉ s.toOrphan)
    (hupd : ∀ u ∈ s.toUpdate, u.id ≠ note.id) :
    note ∈ (applyOutcomes hashFn now svc doc s).1.notes := by
  show note ∈ (updatePhase hashFn now
      (applyOrphans hashFn now (deletePhase svc s).1 s.toOrphan).1
      (s.toUpdate.filterMap (verifyStep hashFn doc
        (applyOrphans hashFn now (deletePhase svc s).1 s.toOrphan).1))).1.notes
  have hd : note ∈ (deletePhase svc s).1.notes := deletePhase_mem svc s note hmem hdel
  have ho : note ∈ (applyOrphans hashFn now (deletePhase svc s).1 s.toOrphan).1.notes := by
    refine applyOrphans_mem hashFn now s.toOrphan _ note ?_ hd
    intro id hid hc
    rw [hc] at horp
    exact horp hid
  refine updatePhase_mem hashFn now _ _ note ho ?_
  intro e he
  obtain ⟨u, hu, hfu⟩ := List.mem_filterMap.1 he
  rw [verifyStep_id hfu]
  exact hupd u hu

theorem getByFile_subset {svc : NotesService} {fp : String} {x : Note}
    (h : x ∈ svc.getByFile fp) : x ∈ svc.notes := by
  unfold NotesService.getByFile at h
  have h1 := (List.perm_insertionSort noteLineLE
    (svc.notes.filter (fun n => n.filePath == fp))).mem_iff.1 h
  exact List.mem_of_mem_filter h1

theorem sortChanges_mem {cs : List ChangeRange} {c : ChangeRange}
    (h : c ∈ sortChanges cs) : c ∈ cs :=
  (List.perm_insertionSort chgGE cs).mem_iff.1 h

end UntouchedC6

/-- Counterexample to claim C6: an orphaned note at line 3 whose line is not
touched by the batch (a pure deletion of line 0, range `[0,1]` with empty
replacement) is nevertheless dragged by the buggy shifting loop into the
deleted range and removed from the store — far from keeping `lineNumber` and
`status` unchanged. -/
theorem claim_c6_cex :
    (NotesLineTracker.processChanges exHash 1 50 svcC6 "f" ["p", "q", "r"]
        [⟨0, 1, ""⟩]).map (fun r => r.1.notes) = some [] := by
  decide

/-- Claim C6 amended: a note (in particular an orphaned one) is left entirely
unchanged — same `lineNumber`, same `status`, same everything — by any
completed reconciliation all of whose ranges start strictly below the note's
line.  (Edits *above* the note do move or even delete it, orphaned or not.) -/
theorem claim_c6_edits_below_leave_orphan (hashFn : String → String) (now fuel : Nat)
    (svc : NotesService) (fp : String) (doc : List String)
    (changes : List NotesLineTracker.ChangeRange) (note : Note)
    (hids : (svc.notes.map Note.id).Nodup)
    (hmem : note ∈ svc.notes)
    (horph : note.status = .orphaned)
    (hbelow : ∀ c ∈ changes, note.lineNumber < c.startLine)
    (hrange : ∀ c ∈ changes, c.startLine ≤ c.endLine) :
    ∀ svc' evs, NotesLineTracker.processChanges hashFn now fuel svc fp doc changes =
      some (svc', evs) → note ∈ svc'.notes := by
  intro svc' evs hp
  unfold NotesLineTracker.processChanges at hp
  by_cases hemp : changes.isEmpty
  · rw [if_pos hemp] at hp
    have h : svc = svc' := congrArg Prod.fst (Option.some.inj hp)
    rw [← h]
    exact hmem
  · rw [if_neg hemp] at hp
    cases hrun : NotesLineTracker.runChanges fuel (NotesLineTracker.sortChanges changes)
        ⟨NotesLineTracker.seedMap (svc.getByFile fp), [], [], []⟩ with
    | none =>
      rw [hrun] at hp
      exact absurd hp (by simp)
    | some s =>
      rw [hrun] at hp
      have h : (NotesLineTracker.applyOutcomes hashFn now svc doc s).1 = svc' :=
        congrArg Prod.fst (Option.some.inj hp)
      rw [← h]
      have hinv0 : untouched note ⟨NotesLineTracker.seedMap (svc.getByFile fp), [], [], []⟩ := by
        refine ⟨by simp, by simp, by simp, ?_⟩
        intro e he x hx hid
        obtain ⟨hxn, hkey⟩ := seedMap_inv (svc.getByFile fp) e he x hx
        have hxeq : x = note :=
          List.inj_on_of_nodup_map hids (getByFile_subset hxn) hmem hid
        rw [hkey, hxeq]
      have hinv := runChanges_untouched fuel (NotesLineTracker.sortChanges changes) _ s
        (fun c hc => ⟨hbelow c (sortChanges_mem hc), hrange c (sortChanges_mem hc)⟩)
        hinv0 hrun
      exact applyOutcomes_mem hashFn now svc doc s note hmem hinv.1 hinv.2.1 hinv.2.2.1

/-- Witness for the amended C6: an orphaned note at line 0 is untouched by a
reconciliation of a single-line edit at line 2, which completes with exactly
that note still in the store (the concrete completed run is discharged by
evaluation). -/
theorem claim_c6_edits_below_leave_orphan_witness :
    mkNote "a" "f" 0 "Z" .orphaned ∈
      (⟨[mkNote "a" "f" 0 "Z" .orphaned]⟩ : NotesService).notes :=
  claim_c6_edits_below_leave_orphan exHash 1 50 svcC6w "f" ["Z", "y", "Q"] [⟨2, 2, "Q"⟩]
    (mkNote "a" "f" 0 "Z" .orphaned) (by decide) (by decide) (by decide)
    (by decide) (by decide) ⟨[mkNote "a" "f" 0 "Z" .orphaned]⟩ [] (by decide)

/-! Positional map lemmas and the pure-deletion claim (C4). -/

section PureDeleteC4

open NotesLineTracker

theorem mapSet_get?_of_ne {m : LineMap} {k : Int} {v : List Note} {j : Nat}
    {e : Int × List Note} (hj : m.get? j = some e) (hne : e.1 ≠ k) :
    (mapSet m k v).get? j = some e := by
  induction m generalizing j with
  | nil => simp at hj
  | cons a t ih =>
    cases j with
    | zero =>
      simp only [List.get?] at hj
      cases hj
      simp only [mapSet]
      rw [if_neg (by simpa using hne)]
      rfl
    | succ n =>
      simp only [List.get?] at hj
      simp only [mapSet]
      by_cases ha : (a.1 == k) = true
      · rw [if_pos ha]
        simpa using hj
      · rw [if_neg ha]
        simpa using ih hj

theorem keysNodup_cons {a : Int × List Note} {t : LineMap} (h : keysNodup (a :: t)) :
    a.1 ∉ t.map Prod.fst ∧ keysNodup t := by
  simpa [keysNodup, List.nodup_cons] using h

theorem mapSet_get?_self {m : LineMap} {k : Int} {v b : List Note} {j : Nat}
    (hnd : keysNodup m) (hj : m.get? j = some (k, b)) :
    (mapSet m k v).get? j = some (k, v) := by
  induction m generalizing j with
  | nil => simp at hj
  | cons a t ih =>
    cases j with
    | zero =>
      simp only [List.get?] at hj
      cases hj
      simp only [mapSet]
      rw [if_pos (by simp)]
      rfl
    | succ n =>
      simp only [List.get?] at hj
      have hkmem : k ∈ t.map Prod.fst := by
        have hbt : (k, b) ∈ t := List.get?_mem hj
        simpa using List.mem_map_of_mem Prod.fst hbt
      have ha : (a.1 == k) = false := by
        have hup := keysNodup_cons hnd
        have : a.1 ≠ k := fun hc => hup.1 (hc ▸ hkmem)
        simpa using this
      simp only [mapSet]
      rw [if_neg (by simp [ha])]
      simpa using ih (keysNodup_cons hnd).2 hj

theorem mapGet_of_get? {m : LineMap} {j : Nat} {k : Int} {b : List Note}
    (hnd : keysNodup m) (hj : m.get? j = some (k, b)) : mapGet m k = some b := by
  induction m generalizing j with
  | nil => simp at hj
  | cons a t ih =>
    cases j with
    | zero =>
      simp only [List.get?] at hj
      cases hj
      simp [mapGet, List.find?]
    | succ n =>
      simp only [List.get?] at hj
      have hkmem : k ∈ t.map Prod.fst := by
        have hbt : (k, b) ∈ t := List.get?_mem hj
        simpa using List.mem_map_of_mem Prod.fst hbt
      have ha : (a.1 == k) = false := by
        have hup := keysNodup_cons hnd
        have : a.1 ≠ k := fun hc => hup.1 (hc ▸ hkmem)
        simpa using this
      have := ih (keysNodup_cons hnd).2 hj
      simp only [mapGet, List.find?] at this ⊢
      rw [ha]
      exact this

theorem keys_mapSet_cases {m : LineMap} {k x : Int} {v : List Note}
    (h : x ∈ (mapSet m k v).map Prod.fst) : x ∈ m.map Prod.fst ∨ x = k := by
  obtain ⟨e, he, hx⟩ := List.mem_map.1 h
  rcases mapSet_mem_cases he with h1 | h1
  · exact Or.inl (hx ▸ List.mem_map_of_mem Prod.fst h1)
  · subst h1
    exact Or.inr (by simpa using hx.symm)

theorem keysNodup_mapSet {m : LineMap} {k : Int} {v : List Note} (hnd : keysNodup m) :
    keysNodup (mapSet m k v) := by
  induction m with
  | nil => simp [mapSet, keysNodup]
  | cons a t ih =>
    simp only [mapSet]
    by_cases ha : (a.1 == k) = true
    · rw [if_pos ha]
      have hak : a.1 = k := by simpa using ha
      have hup := keysNodup_cons hnd
      simp only [keysNodup, List.map_cons, List.nodup_cons]
      exact ⟨by rw [← hak]; exact hup.1, hup.2⟩
    · rw [if_neg ha]
      have hup := keysNodup_cons hnd
      simp only [keysNodup, List.map_cons, List.nodup_cons]
      refine ⟨?_, ih hup.2⟩
      intro hc
      rcases keys_mapSet_cases hc with h1 | h1
      · exact hup.1 h1
      · exact absurd (by simpa using h1) (by simpa using ha)

theorem mapSet_get?_exists (m : LineMap) (k : Int) (v : List Note) :
    ∃ j, (mapSet m k v).get? j = some (k, v) := by
  induction m with
  | nil => exact ⟨0, rfl⟩
  | cons a t ih =>
    simp only [mapSet]
    by_cases ha : (a.1 == k) = true
    · rw [if_pos ha]
      exact ⟨0, rfl⟩
    · rw [if_neg ha]
      obtain ⟨j, hj⟩ := ih
      exact ⟨j + 1, by simpa using hj⟩

theorem seedMap_keysNodup (notes : List Note) : keysNodup (seedMap notes) := by
  have main : ∀ (l : List Note) (m : LineMap), keysNodup m →
      keysNodup (l.foldl (fun m note =>
        mapSet m note.lineNumber (((mapGet m note.lineNumber).getD []) ++ [note])) m) := by
    intro l
    induction l with
    | nil =>
      intro m hm
      exact hm
    | cons z t ih =>
      intro m hm
      rw [List.foldl_cons]
      exact ih _ (keysNodup_mapSet hm)
  exact main notes [] (by simp [keysNodup])

theorem seedMap_find (notes : List Note) :
    ∀ x ∈ notes, ∃ j b, (seedMap notes).get? j = some (x.lineNumber, b) ∧ x ∈ b := by
  have main : ∀ (l : List Note) (m : LineMap), keysNodup m → ∀ x : Note,
      ((∃ j b, m.get? j = some (x.lineNumber, b) ∧ x ∈ b) ∨ x ∈ l) →
      ∃ j b, (l.foldl (fun m note =>
          mapSet m note.lineNumber (((mapGet m note.lineNumber).getD []) ++ [note])) m).get? j =
        some (x.lineNumber, b) ∧ x ∈ b := by
    intro l
    induction l with
    | nil =>
      intro m _ x hx
      rcases hx with hx | hx
      · exact hx
      · simp at hx
    | cons z t ih =>
      intro m hm x hx
      rw [List.foldl_cons]
      apply ih _ (keysNodup_mapSet hm)
      rcases hx with ⟨j, b, hj, hxb⟩ | hx
      · left
        by_cases hkey : x.lineNumber = z.lineNumber
        · have hj2 : m.get? j = some (z.lineNumber, b) := hkey ▸ hj
          have hj' : (mapSet m z.lineNumber
                ((mapGet m z.lineNumber).getD [] ++ [z])).get? j =
              some (z.lineNumber, (mapGet m z.lineNumber).getD [] ++ [z]) :=
            mapSet_get?_self hm hj2
          have hmg : mapGet m z.lineNumber = some b := mapGet_of_get? hm hj2
          rw [hkey]
          refine ⟨j, _, hj', ?_⟩
          rw [hmg]
          exact List.mem_append_left _ hxb
        · exact ⟨j, b, mapSet_get?_of_ne hj (by simpa using hkey), hxb⟩
      · rcases List.mem_cons.1 hx with rfl | hx
        · left
          obtain ⟨j, hj⟩ := mapSet_get?_exists m x.lineNumber
            (((mapGet m x.lineNumber).getD []) ++ [x])
          exact ⟨j, _, hj, List.mem_append_right _ (List.mem_singleton_self x)⟩
        · right
          exact hx
  intro x hx
  exact main notes [] (by simp [keysNodup]) x (Or.inr hx)

theorem keysNodup_get?_ne {m : LineMap} {i j : Nat} {e : Int × List Note} {L : Int}
    {b : List Note} (hnd : keysNodup m) (hi : m.get? i = some e)
    (hj : m.get? j = some (L, b)) (hij : i ≠ j) : e.1 ≠ L := by
  intro hc
  have hilen : i < m.length := by
    by_contra hcon
    rw [List.get?_eq_none.2 (Nat.le_of_not_lt hcon)] at hi
    exact absurd hi (by simp)
  have h1 : (m.map Prod.fst).get? i = some L := by
    rw [List.get?_map, hi]
    simp [hc]
  have h2 : (m.map Prod.fst).get? j = some L := by
    rw [List.get?_map, hj]
    rfl
  exact hij (List.get?_inj (by simpa using hilen) hnd (h1.trans h2.symm))

theorem shiftMap_pos {m : LineMap} {L : Int} {j : Nat} {b : List Note}
    (hnd : keysNodup m) (hj : m.get? j = some (L, b)) (k k2 : Int) (hkL : k ≠ L)
    (v1 : List Note) (x : Note) :
    ∃ b', (mapSet (mapSet m k v1) k2
        (((mapGet (mapSet m k v1) k2).getD []) ++ [x])).get? j = some (L, b') ∧ b ⊆ b' := by
  have hj1 : (mapSet m k v1).get? j = some (L, b) := mapSet_get?_of_ne hj (Ne.symm hkL)
  have hnd1 : keysNodup (mapSet m k v1) := keysNodup_mapSet hnd
  by_cases hkey : k2 = L
  · subst hkey
    have hmg : mapGet (mapSet m k v1) k2 = some b := mapGet_of_get? hnd1 hj1
    refine ⟨_, mapSet_get?_self hnd1 hj1, ?_⟩
    rw [hmg]
    exact List.subset_append_left _ _
  · exact ⟨b, mapSet_get?_of_ne hj1 (Ne.symm hkey), List.Subset.refl b⟩

theorem processNote_toDelete_mem (ci : ChangeInfo) (k : Int) (x : Note) (s : LoopState)
    {nid : String} (h : nid ∈ s.toDelete) : nid ∈ (processNote ci k x s).toDelete := by
  by_cases h1 : x.id ∈ s.toDelete ∨ x.id ∈ s.toOrphan
  · rw [processNote_skip ci k x s h1]
    exact h
  · by_cases h2 : ci.startLine ≤ k ∧ k ≤ ci.endLine
    · by_cases h3 : ci.isPureDeletion = true
      · rw [processNote_inRange_pure ci k x s h1 h2 h3]
        exact List.mem_append_left _ h
      · by_cases h4 : ci.isSingleLineEdit = true
        · rw [processNote_inRange_single ci k x s h1 h2 (by simpa using h3) h4]
          exact h
        · rw [processNote_inRange_complex ci k x s h1 h2 (by simpa using h3) (by simpa using h4)]
          exact h
    · by_cases h3 : ci.endLine < k
      · rw [processNote_shift ci k x s h1 h2 h3]
        exact h
      · rw [processNote_noop ci k x s h1 h2 h3]
        exact h

theorem processNote_toOrphan_pure (ci : ChangeInfo) (k : Int) (x : Note) (s : LoopState)
    (hci : ci.isPureDeletion = true) :
    (processNote ci k x s).toOrphan = s.toOrphan := by
  by_cases h1 : x.id ∈ s.toDelete ∨ x.id ∈ s.toOrphan
  · rw [processNote_skip ci k x s h1]
  · by_cases h2 : ci.startLine ≤ k ∧ k ≤ ci.endLine
    · rw [processNote_inRange_pure ci k x s h1 h2 hci]
    · by_cases h3 : ci.endLine < k
      · rw [processNote_shift ci k x s h1 h2 h3]
      · rw [processNote_noop ci k x s h1 h2 h3]

theorem processNote_keysNodup (ci : ChangeInfo) (k : Int) (x : Note) (s : LoopState)
    (hnd : keysNodup s.m) : keysNodup (processNote ci k x s).m := by
  by_cases h1 : x.id ∈ s.toDelete ∨ x.id ∈ s.toOrphan
  · rw [processNote_skip ci k x s h1]
    exact hnd
  · by_cases h2 : ci.startLine ≤ k ∧ k ≤ ci.endLine
    · by_cases h3 : ci.isPureDeletion = true
      · rw [processNote_inRange_pure ci k x s h1 h2 h3]
        exact hnd
      · by_cases h4 : ci.isSingleLineEdit = true
        · rw [processNote_inRange_single ci k x s h1 h2 (by simpa using h3) h4]
          exact hnd
        · rw [processNote_inRange_complex ci k x s h1 h2 (by simpa using h3) (by simpa using h4)]
          exact hnd
    · by_cases h3 : ci.endLine < k
      · rw [processNote_shift ci k x s h1 h2 h3]
        exact keysNodup_mapSet (keysNodup_mapSet hnd)
      · rw [processNote_noop ci k x s h1 h2 h3]
        exact hnd

theorem processNote_pos_c4 (ci : ChangeInfo) (k : Int) (x : Note) (s : LoopState)
    {L : Int} {j : Nat} {b : List Note}
    (hnd : keysNodup s.m) (hkL : k ≠ L) (hj : s.m.get? j = some (L, b)) :
    ∃ b', (processNote ci k x s).m.get? j = some (L, b') ∧ b ⊆ b' := by
  by_cases h1 : x.id ∈ s.toDelete ∨ x.id ∈ s.toOrphan
  · rw [processNote_skip ci k x s h1]
    exact ⟨b, hj, List.Subset.refl b⟩
  · by_cases h2 : ci.startLine ≤ k ∧ k ≤ ci.endLine
    · by_cases h3 : ci.isPureDeletion = true
      · rw [processNote_inRange_pure ci k x s h1 h2 h3]
        exact ⟨b, hj, List.Subset.refl b⟩
      · by_cases h4 : ci.isSingleLineEdit = true
        · rw [processNote_inRange_single ci k x s h1 h2 (by simpa using h3) h4]
          exact ⟨b, hj, List.Subset.refl b⟩
        · rw [processNote_inRange_complex ci k x s h1 h2 (by simpa using h3) (by simpa using h4)]
          exact ⟨b, hj, List.Subset.refl b⟩
    · by_cases h3 : ci.endLine < k
      · rw [processNote_shift ci k x s h1 h2 h3]
        exact shiftMap_pos hnd hj k (k + ci.lineDelta) hkL _ _
      · rw [processNote_noop ci k x s h1 h2 h3]
        exact ⟨b, hj, List.Subset.refl b⟩

theorem processBucket_toDelete_mem (ci : ChangeInfo) (k : Int) {nid : String} :
    ∀ (bucket : List Note) (s : LoopState), nid ∈ s.toDelete →
      nid ∈ (processBucket ci k bucket s).toDelete := by
  intro bucket
  induction bucket with
  | nil =>
    intro s h
    exact h
  | cons y t ih =>
    intro s h
    show nid ∈ (processBucket ci k t (processNote ci k y s)).toDelete
    exact ih _ (processNote_toDelete_mem ci k y s h)

theorem processBucket_toOrphan_pure (ci : ChangeInfo) (k : Int)
    (hci : ci.isPureDeletion = true) :
    ∀ (bucket : List Note) (s : LoopState),
      (processBucket ci k bucket s).toOrphan = s.toOrphan := by
  intro bucket
  induction bucket with
  | nil =>
    intro s
    rfl
  | cons y t ih =>
    intro s
    show (processBucket ci k t (processNote ci k y s)).toOrphan = s.toOrphan
    rw [ih (processNote ci k y s), processNote_toOrphan_pure ci k y s hci]

theorem processBucket_keysNodup (ci : ChangeInfo) (k : Int) :
    ∀ (bucket : List Note) (s : LoopState), keysNodup s.m →
      keysNodup (processBucket ci k bucket s).m := by
  intro bucket
  induction bucket with
  | nil =>
    intro s h
    exact h
  | cons y t ih =>
    intro s h
    show keysNodup (processBucket ci k t (processNote ci k y s)).m
    exact ih _ (processNote_keysNodup ci k y s h)

theorem processBucket_pos_c4 (ci : ChangeInfo) (k : Int) {L : Int} (hkL : k ≠ L) :
    ∀ (bucket : List Note) (s : LoopState) {j : Nat} {b : List Note},
      keysNodup s.m → s.m.get? j = some (L, b) →
      ∃ b', (processBucket ci k bucket s).m.get? j = some (L, b') ∧ b ⊆ b' := by
  intro bucket
  induction bucket with
  | nil =>
    intro s j b _ hj
    exact ⟨b, hj, List.Subset.refl b⟩
  | cons y t ih =>
    intro s j b hnd hj
    show ∃ b', (processBucket ci k t (processNote ci k y s)).m.get? j = some (L, b') ∧ b ⊆ b'
    obtain ⟨b1, hb1, hsub1⟩ := processNote_pos_c4 ci k y s hnd hkL hj
    obtain ⟨b', hb', hsub'⟩ := ih (processNote ci k y s) (processNote_keysNodup ci k y s hnd) hb1
    exact ⟨b', hb', hsub1.trans hsub'⟩

theorem processBucket_marks (ci : ChangeInfo) (k : Int) {nid : String}
    (hci : ci.isPureDeletion = true) (hk : ci.startLine ≤ k ∧ k ≤ ci.endLine) :
    ∀ (bucket : List Note) (s : LoopState),
      (∃ x ∈ bucket, x.id = nid) → nid ∉ s.toOrphan →
      nid ∈ (processBucket ci k bucket s).toDelete := by
  intro bucket
  induction bucket with
  | nil =>
    intro s hx _
    simp at hx
  | cons y t ih =>
    intro s hx horph
    obtain ⟨x, hxm, hxid⟩ := hx
    rcases List.mem_cons.1 hxm with rfl | hxt
    · show nid ∈ (processBucket ci k t (processNote ci k x s)).toDelete
      by_cases h1 : x.id ∈ s.toDelete ∨ x.id ∈ s.toOrphan
      · rcases h1 with hd | ho
        · have hd' := hd
          rw [hxid] at hd'
          rw [processNote_skip ci k x s (Or.inl hd)]
          exact processBucket_toDelete_mem ci k t s hd'
        · rw [hxid] at ho
          exact absurd ho horph
      · rw [processNote_inRange_pure ci k x s h1 hk hci]
        refine processBucket_toDelete_mem ci k t _ ?_
        exact List.mem_append_right _ (by simp [hxid])
    · show nid ∈ (processBucket ci k t (processNote ci k y s)).toDelete
      refine ih (processNote ci k y s) ⟨x, hxt, hxid⟩ ?_
      rw [processNote_toOrphan_pure ci k y s hci]
      exact horph

theorem processEntriesFrom_c4 (ci : ChangeInfo) (note : Note)
    (hci : ci.isPureDeletion = true)
    (hlo : ci.startLine ≤ note.lineNumber) (hhi : note.lineNumber ≤ ci.endLine) :
    ∀ (fuel i : Nat) (s s' : LoopState), keysNodup s.m → note.id ∉ s.toOrphan →
      (note.id ∈ s.toDelete ∨
        ∃ j b, i ≤ j ∧ s.m.get? j = some (note.lineNumber, b) ∧ ∃ x ∈ b, x.id = note.id) →
      processEntriesFrom ci fuel i s = some s' → note.id ∈ s'.toDelete := by
  intro fuel
  induction fuel with
  | zero =>
    intro i s s' _ _ _ h
    exact absurd h (by simp [processEntriesFrom])
  | succ f ih =>
    intro i s s' hnd horph hpend hrun
    rw [processEntriesFrom] at hrun
    by_cases h : i < s.m.length
    · rw [dif_pos h] at hrun
      rcases hpend with hdel | ⟨j, b, hij, hj, x, hxb, hxid⟩
      · refine ih (i + 1) _ s' (processBucket_keysNodup ci _ _ s hnd) ?_
          (Or.inl (processBucket_toDelete_mem ci _ _ s hdel)) hrun
        rw [processBucket_toOrphan_pure ci _ hci _ s]
        exact horph
      · rcases Nat.eq_or_lt_of_le hij with heq | hlt
        · rw [← heq] at hj
          have hj' := hj
          rw [List.get?_eq_get h] at hj'
          have he : s.m.get ⟨i, h⟩ = (note.lineNumber, b) := Option.some.inj hj'
          refine ih (i + 1) _ s' (processBucket_keysNodup ci _ _ s hnd) ?_ (Or.inl ?_) hrun
          · rw [processBucket_toOrphan_pure ci _ hci _ s]
            exact horph
          · rw [he]
            exact processBucket_marks ci note.lineNumber hci ⟨hlo, hhi⟩ b s
              ⟨x, hxb, hxid⟩ horph
        · have hget : s.m.get? i = some (s.m.get ⟨i, h⟩) := List.get?_eq_get h
          have hne : (s.m.get ⟨i, h⟩).1 ≠ note.lineNumber :=
            keysNodup_get?_ne hnd hget hj (Nat.ne_of_lt hlt)
          obtain ⟨b', hb', hsub⟩ :=
            processBucket_pos_c4 ci (s.m.get ⟨i, h⟩).1 hne (s.m.get ⟨i, h⟩).2 s hnd hj
          refine ih (i + 1) _ s' (processBucket_keysNodup ci _ _ s hnd) ?_
            (Or.inr ⟨j, b', hlt, hb', x, hsub hxb, hxid⟩) hrun
          rw [processBucket_toOrphan_pure ci _ hci _ s]
          exact horph
    · rw [dif_neg h] at hrun
      cases hrun
      rcases hpend with hdel | ⟨j, b, hij, hj, _⟩
      · exact hdel
      · exfalso
        have hnone : s.m.get? j = none :=
          List.get?_eq_none.2 (le_trans (Nat.le_of_not_lt h) hij)
        rw [hnone] at hj
        exact absurd hj (by simp)

theorem processNote_outside (ci : ChangeInfo) (k : Int) (x : Note) (s : LoopState)
    (hk1 : ¬ ci.startLine ≤ k) (hk2 : ¬ ci.endLine < k) :
    processNote ci k x s = s := by
  by_cases hskip : x.id ∈ s.toDelete ∨ x.id ∈ s.toOrphan
  · exact processNote_skip ci k x s hskip
  · exact processNote_noop ci k x s hskip (fun hc => hk1 hc.1) hk2

theorem processNote_toOrphan_not_mem (ci : ChangeInfo) (k : Int) (x : Note) (s : LoopState)
    {nid : String} (h : nid ∉ s.toOrphan) (hx : x.id ≠ nid) :
    nid ∉ (processNote ci k x s).toOrphan := by
  by_cases h1 : x.id ∈ s.toDelete ∨ x.id ∈ s.toOrphan
  · rw [processNote_skip ci k x s h1]
    exact h
  · by_cases h2 : ci.startLine ≤ k ∧ k ≤ ci.endLine
    · by_cases h3 : ci.isPureDeletion = true
      · rw [processNote_inRange_pure ci k x s h1 h2 h3]
        exact h
      · by_cases h4 : ci.isSingleLineEdit = true
        · rw [processNote_inRange_single ci k x s h1 h2 (by simpa using h3) h4]
          exact h
        · rw [processNote_inRange_complex ci k x s h1 h2 (by simpa using h3) (by simpa using h4)]
          intro hc
          rcases List.mem_append.1 hc with hc | hc
          · exact h hc
          · exact hx (List.mem_singleton.1 hc).symm
    · by_cases h3 : ci.endLine < k
      · rw [processNote_shift ci k x s h1 h2 h3]
        exact h
      · rw [processNote_noop ci k x s h1 h2 h3]
        exact h

theorem processNote_inv3 {note : Note} (ci : ChangeInfo) (k : Int) (x : Note) (s : LoopState)
    (hxid : x.id ≠ note.id)
    (h4 : ∀ e ∈ s.m, ∀ y ∈ e.2, y.id = note.id → e.1 = note.lineNumber) :
    ∀ e ∈ (processNote ci k x s).m, ∀ y ∈ e.2, y.id = note.id → e.1 = note.lineNumber := by
  by_cases hskip : x.id ∈ s.toDelete ∨ x.id ∈ s.toOrphan
  · rw [processNote_skip ci k x s hskip]
    exact h4
  · by_cases hin : ci.startLine ≤ k ∧ k ≤ ci.endLine
    · cases hpure : ci.isPureDeletion with
      | true =>
        rw [processNote_inRange_pure ci k x s hskip hin hpure]
        exact h4
      | false =>
        cases hsingle : ci.isSingleLineEdit with
        | true =>
          rw [processNote_inRange_single ci k x s hskip hin hpure hsingle]
          exact h4
        | false =>
          rw [processNote_inRange_complex ci k x s hskip hin hpure hsingle]
          exact h4
    · by_cases hshift : ci.endLine < k
      · rw [processNote_shift ci k x s hskip hin hshift]
        have hfv : ∀ y ∈ ((mapGet s.m k).getD []).filter (fun n => !(n.id == x.id)),
            y.id = note.id → k = note.lineNumber := by
          intro y hy hid
          have hy' : y ∈ (mapGet s.m k).getD [] := List.mem_of_mem_filter hy
          cases hmg : mapGet s.m k with
          | none =>
            rw [hmg] at hy'
            simp at hy'
          | some b =>
            rw [hmg] at hy'
            exact h4 (k, b) (mapGet_mem hmg) y hy' hid
        have hm1 : ∀ e ∈ mapSet s.m k (((mapGet s.m k).getD []).filter (fun n => !(n.id == x.id))),
            ∀ y ∈ e.2, y.id = note.id → e.1 = note.lineNumber := inv4_mapSet h4 hfv
        show ∀ e ∈ mapSet (mapSet s.m k _) (k + ci.lineDelta) _, ∀ y ∈ e.2, _
        apply inv4_mapSet hm1
        intro y hy hid
        rcases List.mem_append.1 hy with hy | hy
        · cases hmg : mapGet (mapSet s.m k (((mapGet s.m k).getD []).filter
              (fun n => !(n.id == x.id)))) (k + ci.lineDelta) with
          | none =>
            rw [hmg] at hy
            simp at hy
          | some b =>
            rw [hmg] at hy
            exact hm1 (k + ci.lineDelta, b) (mapGet_mem hmg) y hy hid
        · rcases List.mem_singleton.1 hy with rfl
          exact absurd hid hxid
      · rw [processNote_noop ci k x s hskip hin hshift]
        exact h4

theorem processNote_pend {note : Note} (ci : ChangeInfo) (k : Int) (x : Note) (s : LoopState)
    (hbs : note.lineNumber < ci.startLine) (hse : ci.startLine ≤ ci.endLine)
    (hx : x.id = note.id → k = note.lineNumber)
    (hinv : pendingDel note s) : pendingDel note (processNote ci k x s) := by
  obtain ⟨h1, h2, h3, h4⟩ := hinv
  by_cases hkL : k = note.lineNumber
  · rw [processNote_outside ci k x s (by omega) (by omega)]
    exact ⟨h1, h2, h3, h4⟩
  · have hxid : x.id ≠ note.id := fun hc => hkL (hx hc)
    refine ⟨processNote_keysNodup ci k x s h1,
      processNote_toOrphan_not_mem ci k x s h2 hxid,
      processNote_inv3 ci k x s hxid h3, ?_⟩
    rcases h4 with hdel | ⟨j, b, hj, x', hx'b, hx'id⟩
    · exact Or.inl (processNote_toDelete_mem ci k x s hdel)
    · obtain ⟨b', hb', hsub⟩ := processNote_pos_c4 ci k x s h1 hkL hj
      exact Or.inr ⟨j, b', hb', x', hsub hx'b, hx'id⟩

theorem processBucket_pend {note : Note} (ci : ChangeInfo) (k : Int)
    (hbs : note.lineNumber < ci.startLine) (hse : ci.startLine ≤ ci.endLine) :
    ∀ (bucket : List Note) (s : LoopState),
      (∀ x ∈ bucket, x.id = note.id → k = note.lineNumber) →
      pendingDel note s → pendingDel note (processBucket ci k bucket s) := by
  intro bucket
  induction bucket with
  | nil =>
    intro s _ hinv
    exact hinv
  | cons y t ih =>
    intro s hbk hinv
    show pendingDel note (processBucket ci k t (processNote ci k y s))
    exact ih (processNote ci k y s) (fun x hx => hbk x (List.mem_cons_of_mem y hx))
      (processNote_pend ci k y s hbs hse (hbk y (List.mem_cons_self y t)) hinv)

theorem processEntriesFrom_pend {note : Note} (ci : ChangeInfo)
    (hbs : note.lineNumber < ci.startLine) (hse : ci.startLine ≤ ci.endLine) :
    ∀ (fuel i : Nat) (s s' : LoopState), pendingDel note s →
      processEntriesFrom ci fuel i s = some s' → pendingDel note s' := by
  intro fuel
  induction fuel with
  | zero =>
    intro i s s' _ h
    exact absurd h (by simp [processEntriesFrom])
  | succ f ih =>
    intro i s s' hinv hrun
    rw [processEntriesFrom] at hrun
    by_cases h : i < s.m.length
    · rw [dif_pos h] at hrun
      refine ih (i + 1) _ s' ?_ hrun
      have he : s.m.get ⟨i, h⟩ ∈ s.m := List.get_mem s.m i h
      exact processBucket_pend ci (s.m.get ⟨i, h⟩).1 hbs hse (s.m.get ⟨i, h⟩).2 s
        (fun x hx => hinv.2.2.1 (s.m.get ⟨i, h⟩) he x hx) hinv
    · rw [dif_neg h] at hrun
      cases hrun
      exact hinv

theorem processEntriesFrom_toDelete_mem (ci : ChangeInfo) {nid : String} :
    ∀ (fuel i : Nat) (s s' : LoopState), nid ∈ s.toDelete →
      processEntriesFrom ci fuel i s = some s' → nid ∈ s'.toDelete := by
  intro fuel
  induction fuel with
  | zero =>
    intro i s s' _ h
    exact absurd h (by simp [processEntriesFrom])
  | succ f ih =>
    intro i s s' hmem hrun
    rw [processEntriesFrom] at hrun
    by_cases h : i < s.m.length
    · rw [dif_pos h] at hrun
      exact ih (i + 1) _ s' (processBucket_toDelete_mem ci _ _ s hmem) hrun
    · rw [dif_neg h] at hrun
      cases hrun
      exact hmem

theorem runChanges_toDelete_mem (fuel : Nat) {nid : String} :
    ∀ (cs : List ChangeRange) (s s' : LoopState), nid ∈ s.toDelete →
      runChanges fuel cs s = some s' → nid ∈ s'.toDelete := by
  intro cs
  induction cs with
  | nil =>
    intro s s' hmem h
    cases h
    exact hmem
  | cons c rest ih =>
    intro s s' hmem h
    rw [runChanges] at h
    cases hp : processChange fuel c s with
    | none =>
      rw [hp] at h
      exact absurd h (by simp)
    | some s1 =>
      rw [hp] at h
      have hp' : processEntriesFrom (mkChangeInfo c) fuel 0 s = some s1 := hp
      exact ih s1 s' (processEntriesFrom_toDelete_mem (mkChangeInfo c) fuel 0 s s1 hmem hp') h

theorem runChanges_c4 (note : Note) (fuel : Nat) :
    ∀ (cs : List ChangeRange) (s s' : LoopState),
      (∃ c ∈ cs, c.text = "" ∧ c.startLine < c.endLine ∧
        c.startLine ≤ note.lineNumber ∧ note.lineNumber ≤ c.endLine) →
      (∀ r ∈ cs, (r.text = "" ∧ r.startLine < r.endLine ∧
          r.startLine ≤ note.lineNumber ∧ note.lineNumber ≤ r.endLine) ∨
        (note.lineNumber < r.startLine ∧ r.startLine ≤ r.endLine)) →
      pendingDel note s →
      runChanges fuel cs s = some s' → note.id ∈ s'.toDelete := by
  intro cs
  induction cs with
  | nil =>
    intro s s' hex _ _ _
    simp at hex
  | cons c0 rest ih =>
    intro s s' hex hall hinv hrun
    rw [runChanges] at hrun
    cases hpc : processChange fuel c0 s with
    | none =>
      rw [hpc] at hrun
      exact absurd hrun (by simp)
    | some s1 =>
      rw [hpc] at hrun
      have hpc' : processEntriesFrom (mkChangeInfo c0) fuel 0 s = some s1 := hpc
      rcases hall c0 (List.mem_cons_self c0 rest) with hcov | hbelow
      · have hci : (mkChangeInfo c0).isPureDeletion = true := by
          show (decide (0 < c0.endLine - c0.startLine) && (c0.text == "")) = true
          rw [hcov.1]
          simp
          omega
        have hpend : note.id ∈ s.toDelete ∨ ∃ j b, 0 ≤ j ∧
            s.m.get? j = some (note.lineNumber, b) ∧ ∃ x ∈ b, x.id = note.id := by
          rcases hinv.2.2.2 with hd | ⟨j, b, hj, x, hxb, hxid⟩
          · exact Or.inl hd
          · exact Or.inr ⟨j, b, Nat.zero_le j, hj, x, hxb, hxid⟩
        have hmark : note.id ∈ s1.toDelete :=
          processEntriesFrom_c4 (mkChangeInfo c0) note hci hcov.2.2.1 hcov.2.2.2 fuel 0 s s1
            hinv.1 hinv.2.1 hpend hpc'
        exact runChanges_toDelete_mem fuel rest s1 s' hmark hrun
      · have hinv1 : pendingDel note s1 :=
          processEntriesFrom_pend (mkChangeInfo c0) hbelow.1 hbelow.2 fuel 0 s s1 hinv hpc'
        obtain ⟨c, hc, hcp⟩ := hex
        rcases List.mem_cons.1 hc with rfl | hcrest
        · exact absurd hcp.2.2.1 (by omega)
        · exact ih s1 s' ⟨c, hcrest, hcp⟩
            (fun r hr => hall r (List.mem_cons_of_mem c0 hr)) hinv1 hrun

theorem delNote_sublist (l : List Note) (id : String) : (delNote l id).Sublist l := by
  induction l with
  | nil => simp [delNote]
  | cons y t ih =>
    simp only [delNote]
    by_cases hy : (y.id == id) = true
    · rw [if_pos hy]
      exact List.sublist_cons_self y t
    · rw [if_neg hy]
      exact ih.cons₂ y

theorem delNote_noId {l : List Note} {id : String} (hnd : (l.map Note.id).Nodup) :
    ∀ x ∈ delNote l id, x.id ≠ id := by
  induction l with
  | nil =>
    intro x hx
    simp [delNote] at hx
  | cons y t ih =>
    simp only [List.map_cons, List.nodup_cons] at hnd
    intro x hx
    simp only [delNote] at hx
    by_cases hy : (y.id == id) = true
    · rw [if_pos hy] at hx
      have hyid : y.id = id := by simpa using hy
      intro hc
      apply hnd.1
      rw [hyid, ← hc]
      exact List.mem_map_of_mem Note.id hx
    · rw [if_neg hy] at hx
      rcases List.mem_cons.1 hx with rfl | hx
      · simpa using hy
      · exact ih hnd.2 x hx

theorem setNote_mem_cases {l : List Note} {n x : Note} (h : x ∈ setNote l n) :
    x ∈ l ∨ x = n := by
  induction l with
  | nil =>
    simp [setNote] at h
    exact Or.inr h
  | cons y t ih =>
    simp only [setNote] at h
    by_cases hy : (y.id == n.id) = true
    · rw [if_pos hy] at h
      rcases List.mem_cons.1 h with rfl | h
      · exact Or.inr rfl
      · exact Or.inl (List.mem_cons_of_mem y h)
    · rw [if_neg hy] at h
      rcases List.mem_cons.1 h with rfl | h
      · exact Or.inl (List.mem_cons_self _ _)
      · rcases ih h with h1 | h1
        · exact Or.inl (List.mem_cons_of_mem y h1)
        · exact Or.inr h1

theorem getById_mem {svc : NotesService} {id : String} {n : Note}
    (h : svc.getById id = some n) : n ∈ svc.notes := by
  unfold NotesService.getById at h
  exact List.mem_of_find?_eq_some h

theorem update_noId (hashFn : String → String) (now : Nat) (svc : NotesService)
    (id nid : String) (o : UpdateNoteOptions)
    (h : ∀ x ∈ svc.notes, x.id ≠ nid) :
    ∀ x ∈ (NotesService.update hashFn now svc id o).2.1.notes, x.id ≠ nid := by
  unfold NotesService.update
  cases hg : svc.getById id with
  | none =>
    intro x hx
    exact h x hx
  | some note =>
    intro x hx
    rcases setNote_mem_cases hx with h1 | h1
    · exact h x h1
    · rw [h1, applyOptions_id]
      exact h note (getById_mem hg)

theorem foldl_orphanStep_noId (hashFn : String → String) (now : Nat) (nid : String) :
    ∀ (ids : List String) (acc : NotesService × List NotesChangeEvent),
      (∀ x ∈ acc.1.notes, x.id ≠ nid) →
      ∀ x ∈ (ids.foldl (orphanStep hashFn now) acc).1.notes, x.id ≠ nid := by
  intro ids
  induction ids with
  | nil =>
    intro acc h
    exact h
  | cons i t ih =>
    intro acc h
    rw [List.foldl_cons]
    refine ih _ ?_
    intro x hx
    exact update_noId hashFn now acc.1 i nid _ h x hx

theorem foldl_bulkUpdateStep_noId (hashFn : String → String) (now : Nat) (nid : String) :
    ∀ (entries : List (String × UpdateNoteOptions))
      (acc : NotesService × List String × List String),
      (∀ x ∈ acc.1.notes, x.id ≠ nid) →
      ∀ x ∈ (entries.foldl (NotesService.bulkUpdateStep hashFn now) acc).1.notes,
        x.id ≠ nid := by
  intro entries
  induction entries with
  | nil =>
    intro acc h
    exact h
  | cons e t ih =>
    intro acc h
    rw [List.foldl_cons]
    refine ih _ ?_
    show ∀ x ∈ (NotesService.bulkUpdateStep hashFn now acc e).1.notes, x.id ≠ nid
    unfold NotesService.bulkUpdateStep
    cases hg : acc.1.getById e.1 with
    | none =>
      intro x hx
      exact h x hx
    | some note =>
      intro x hx
      rcases setNote_mem_cases hx with h1 | h1
      · exact h x h1
      · rw [h1, applyOptions_id]
        exact h note (getById_mem hg)

theorem bulkDeleteStep_noId {nid : String} (acc : NotesService × List String × List String)
    (i : String) (h : ∀ x ∈ acc.1.notes, x.id ≠ nid) :
    ∀ x ∈ (NotesService.bulkDeleteStep acc i).1.notes, x.id ≠ nid := by
  unfold NotesService.bulkDeleteStep
  cases hg : acc.1.getById i with
  | none => exact h
  | some note =>
    intro x hx
    exact h x ((delNote_sublist acc.1.notes i).subset hx)

theorem foldl_bulkDeleteStep_removes (nid : String) :
    ∀ (ids : List String) (acc : NotesService × List String × List String),
      ((acc.1.notes.map Note.id).Nodup ∧ nid ∈ ids) ∨ (∀ x ∈ acc.1.notes, x.id ≠ nid) →
      ∀ x ∈ (ids.foldl NotesService.bulkDeleteStep acc).1.notes, x.id ≠ nid := by
  intro ids
  induction ids with
  | nil =>
    intro acc h
    rcases h with ⟨_, hmem⟩ | h
    · simp at hmem
    · exact h
  | cons i t ih =>
    intro acc h
    rw [List.foldl_cons]
    refine ih _ ?_
    rcases h with ⟨hnd, hmem⟩ | hno
    · rcases List.mem_cons.1 hmem with rfl | hmem
      · right
        show ∀ x ∈ (NotesService.bulkDeleteStep acc nid).1.notes, x.id ≠ nid
        unfold NotesService.bulkDeleteStep
        cases hg : acc.1.getById nid with
        | none =>
          intro x hx hc
          unfold NotesService.getById at hg
          have := List.find?_eq_none.1 hg x hx
          simp [hc] at this
        | some note =>
          intro x hx
          exact delNote_noId hnd x hx
      · left
        refine ⟨?_, hmem⟩
        show ((NotesService.bulkDeleteStep acc i).1.notes.map Note.id).Nodup
        unfold NotesService.bulkDeleteStep
        cases hg : acc.1.getById i with
        | none => exact hnd
        | some note =>
          exact List.Nodup.sublist ((delNote_sublist acc.1.notes i).map Note.id) hnd
    · right
      exact bulkDeleteStep_noId acc i hno

theorem updatePhase_noId (hashFn : String → String) (now : Nat) (svc : NotesService)
    (entries : List (String × UpdateNoteOptions)) (nid : String)
    (h : ∀ x ∈ svc.notes, x.id ≠ nid) :
    ∀ x ∈ (updatePhase hashFn now svc entries).1.notes, x.id ≠ nid := by
  unfold updatePhase
  by_cases he : entries.isEmpty
  · rw [if_pos he]
    exact h
  · rw [if_neg he]
    show ∀ x ∈ (entries.foldl (NotesService.bulkUpdateStep hashFn now) (svc, [], [])).1.notes,
      x.id ≠ nid
    exact foldl_bulkUpdateStep_noId hashFn now nid entries (svc, [], []) h

theorem applyOutcomes_removes (hashFn : String → String) (now : Nat) (svc : NotesService)
    (doc : List String) (s : LoopState) (nid : String)
    (hnd : (svc.notes.map Note.id).Nodup) (hdel : nid ∈ s.toDelete) :
    ∀ x ∈ (applyOutcomes hashFn now svc doc s).1.notes, x.id ≠ nid := by
  show ∀ x ∈ (updatePhase hashFn now
      (applyOrphans hashFn now (deletePhase svc s).1 s.toOrphan).1
      (s.toUpdate.filterMap (verifyStep hashFn doc
        (applyOrphans hashFn now (deletePhase svc s).1 s.toOrphan).1))).1.notes, x.id ≠ nid
  have hd : ∀ x ∈ (deletePhase svc s).1.notes, x.id ≠ nid := by
    unfold deletePhase
    by_cases he : s.toDelete.isEmpty
    · exfalso
      rw [List.isEmpty_iff] at he
      rw [he] at hdel
      simp at hdel
    · rw [if_neg he]
      show ∀ x ∈ (s.toDelete.foldl NotesService.bulkDeleteStep (svc, [], [])).1.notes,
        x.id ≠ nid
      exact foldl_bulkDeleteStep_removes nid s.toDelete (svc, [], []) (Or.inl ⟨hnd, hdel⟩)
  have ho : ∀ x ∈ (applyOrphans hashFn now (deletePhase svc s).1 s.toOrphan).1.notes,
      x.id ≠ nid := by
    show ∀ x ∈ (s.toOrphan.foldl (orphanStep hashFn now) ((deletePhase svc s).1, [])).1.notes,
      x.id ≠ nid
    exact foldl_orphanStep_noId hashFn now nid s.toOrphan _ hd
  exact updatePhase_noId hashFn now _ _ nid ho

theorem mem_getByFile {svc : NotesService} {fp : String} {x : Note}
    (hx : x ∈ svc.notes) (hfp : x.filePath = fp) : x ∈ svc.getByFile fp := by
  unfold NotesService.getByFile
  refine (List.perm_insertionSort noteLineLE _).mem_iff.2 ?_
  exact List.mem_filter.2 ⟨hx, by simp [hfp]⟩

end PureDeleteC4

/-- Counterexample to claim C4: the batch `[{3,5,""}, {5,6,"x\ny"}]` contains a
pure deletion (range `[3,5]`, empty replacement) covering the note at line 5,
yet the completed reconciliation does *not* remove the note: the batch is
processed in descending start order, so the complex edit `{5,6,"x\ny"}` marks
the note for orphaning first, and the pure-deletion pass then skips it
(`notesToOrphan.includes(note.id)`).  The note survives with status orphaned. -/
theorem claim_c4_cex :
    (NotesLineTracker.processChanges exHash 1 50 svcC4 "f" ["a", "b", "c", "d"]
        [chgC4a, chgC4b]).map (fun r => r.1.notes.map (fun n => (n.id, n.status))) =
      some [("n", .orphaned)] := by
  decide

/-- Claim C4 amended: the pure-deletion invariant holds for any reconciled
batch in which no other range touches the note first: if some range of the
batch is a pure deletion (deletes at least one line, empty replacement text)
covering the note's line, and every other range of the batch lies entirely
below the note (starts strictly after its line), the note is removed from the
store by the end of that reconciliation.  A range that does touch the note
first — covering it (the counterexample: a complex edit marks it for
orphaning, and the pure-deletion pass then skips ids already in
`notesToOrphan`/`notesToDelete`) or lying above it (shifting its line away
from the deleted range) — voids the guarantee. -/
theorem claim_c4_amended (hashFn : String → String) (now fuel : Nat)
    (svc : NotesService) (fp : String) (doc : List String)
    (changes : List NotesLineTracker.ChangeRange) (note : Note)
    (hids : (svc.notes.map Note.id).Nodup)
    (hmem : note ∈ svc.notes) (hfp : note.filePath = fp)
    (hcov : ∃ c ∈ changes, c.text = "" ∧ c.startLine < c.endLine ∧
      c.startLine ≤ note.lineNumber ∧ note.lineNumber ≤ c.endLine)
    (hothers : ∀ r ∈ changes, (r.text = "" ∧ r.startLine < r.endLine ∧
        r.startLine ≤ note.lineNumber ∧ note.lineNumber ≤ r.endLine) ∨
      (note.lineNumber < r.startLine ∧ r.startLine ≤ r.endLine)) :
    ∀ svc' evs, NotesLineTracker.processChanges hashFn now fuel svc fp doc changes =
      some (svc', evs) → ∀ x ∈ svc'.notes, x.id ≠ note.id := by
  intro svc' evs hp
  unfold NotesLineTracker.processChanges at hp
  by_cases hemp : changes.isEmpty
  · exfalso
    rw [List.isEmpty_iff] at hemp
    obtain ⟨c, hc, _⟩ := hcov
    rw [hemp] at hc
    simp at hc
  · rw [if_neg hemp] at hp
    cases hrun : NotesLineTracker.runChanges fuel (NotesLineTracker.sortChanges changes)
        ⟨NotesLineTracker.seedMap (svc.getByFile fp), [], [], []⟩ with
    | none =>
      rw [hrun] at hp
      exact absurd hp (by simp)
    | some s =>
      rw [hrun] at hp
      have h : (NotesLineTracker.applyOutcomes hashFn now svc doc s).1 = svc' :=
        congrArg Prod.fst (Option.some.inj hp)
      rw [← h]
      have hinv0 : pendingDel note ⟨NotesLineTracker.seedMap (svc.getByFile fp), [], [], []⟩ := by
        refine ⟨seedMap_keysNodup _, by simp, ?_, ?_⟩
        · intro e he x hx hid
          obtain ⟨hxn, hkey⟩ := seedMap_inv (svc.getByFile fp) e he x hx
          have hxeq : x = note :=
            List.inj_on_of_nodup_map hids (getByFile_subset hxn) hmem hid
          rw [hkey, hxeq]
        · obtain ⟨j, b, hj, hb⟩ :=
            seedMap_find (svc.getByFile fp) note (mem_getByFile hmem hfp)
          exact Or.inr ⟨j, b, hj, note, hb, rfl⟩
      obtain ⟨c, hc, hcp⟩ := hcov
      have hmarked : note.id ∈ s.toDelete :=
        runChanges_c4 note fuel (NotesLineTracker.sortChanges changes) _ s
          ⟨c, (List.perm_insertionSort NotesLineTracker.chgGE changes).mem_iff.2 hc, hcp⟩
          (fun r hr => hothers r (sortChanges_mem hr)) hinv0 hrun
      exact applyOutcomes_removes hashFn now svc doc s note.id hids hmarked

/-- Witness for the amended C4 on a two-range batch: the pure deletion
`{1,2,""}` covers note `"a"` at line 1 and the other range `{3,4,"x"}` starts
strictly below it, so `"a"` is removed; the reconciliation completes
(discharged by evaluation) with only note `"b"` left, and that surviving
note's id is indeed not the deleted one. -/
theorem claim_c4_amended_witness :
    ((mkNote "b" "f" 0 "Z" .active).id == "a") = false :=
  beq_eq_false_iff_ne.2
    (claim_c4_amended exHash 1 50 svcC4w "f" ["A", "B", "C"]
      [⟨1, 2, ""⟩, ⟨3, 4, "x"⟩] (mkNote "a" "f" 1 "M" .active)
      (by decide) (by decide) (by decide) (by decide) (by decide)
      ⟨[mkNote "b" "f" 0 "Z" .active]⟩ [⟨.bulkDeleted, ["a"], ["f"]⟩] (by decide)
      (mkNote "b" "f" 0 "Z" .active) (by decide))

/-! The directory-rename path rewriter (C9): prefix decomposition lemmas and
the double-rewrite cascade. -/

section RenameC9

theorem prefOf_iff (l1 l2 : List Char) : l1.isPrefixOf l2 = true ↔ ∃ t, l2 = l1 ++ t := by
  induction l1 generalizing l2 with
  | nil =>
    simp [List.isPrefixOf]
  | cons a t ih =>
    cases l2 with
    | nil =>
      simp [List.isPrefixOf]
    | cons b t2 =>
      simp only [List.isPrefixOf, Bool.and_eq_true, beq_iff_eq]
      constructor
      · rintro ⟨rfl, h⟩
        obtain ⟨r, rfl⟩ := (ih t2).1 h
        exact ⟨r, rfl⟩
      · rintro ⟨r, hr⟩
        rw [List.cons_append] at hr
        injection hr with hb ht
        exact ⟨hb.symm, (ih t2).2 ⟨r, ht⟩⟩

theorem string_data_inj {a b : String} (h : a.data = b.data) : a = b := by
  cases a
  cases b
  cases h
  rfl

/-- Under the side conditions that the two directories are distinct and
neither lies inside the other, the rewritten path of an affected note is
itself not affected: the per-pair `updateFilePath` loop cannot rewrite it a
second time. -/
theorem renameTarget_unaffected (oldPath newPath p : String)
    (hne : oldPath ≠ newPath)
    (h1 : strStarts newPath (strCat oldPath "/") = false)
    (h2 : strStarts oldPath (strCat newPath "/") = false)
    (hp : NotesFileTracker.affectedPath oldPath p = true) :
    NotesFileTracker.affectedPath oldPath
      (NotesFileTracker.renameTarget oldPath newPath p) = false := by
  have h1' : (oldPath.data ++ ['/']).isPrefixOf newPath.data = false := h1
  have h2' : (newPath.data ++ ['/']).isPrefixOf oldPath.data = false := h2
  unfold NotesFileTracker.affectedPath at hp ⊢
  rw [Bool.or_eq_true] at hp
  rw [Bool.or_eq_false_iff]
  rcases hp with hpre | heq
  · have hpre' : (oldPath.data ++ ['/']).isPrefixOf p.data = true := hpre
    obtain ⟨r, hr⟩ := (prefOf_iff _ _).1 hpre'
    have hdrop : p.data.drop oldPath.data.length = '/' :: r := by
      rw [hr, List.append_assoc, List.drop_left]
      rfl
    have hT : (NotesFileTracker.renameTarget oldPath newPath p).data =
        newPath.data ++ '/' :: r := by
      show newPath.data ++ p.data.drop oldPath.data.length = newPath.data ++ '/' :: r
      rw [hdrop]
    refine ⟨?_, ?_⟩
    · show (oldPath.data ++ ['/']).isPrefixOf
        (NotesFileTracker.renameTarget oldPath newPath p).data = false
      rw [hT]
      by_contra hcon
      rw [Bool.not_eq_false] at hcon
      obtain ⟨u, hu⟩ := (prefOf_iff _ _).1 hcon
      rcases Nat.lt_trichotomy oldPath.data.length newPath.data.length with hlen | hlen | hlen
      · have htake := congrArg (List.take (oldPath.data.length + 1)) hu
        rw [List.take_append_of_le_length (by omega)] at htake
        rw [List.take_left' (by simp)] at htake
        have hNsplit : newPath.data =
            (oldPath.data ++ ['/']) ++ newPath.data.drop (oldPath.data.length + 1) := by
          rw [← htake, List.take_append_drop]
        rw [(prefOf_iff _ _).2 ⟨_, hNsplit⟩] at h1'
        exact absurd h1' (by simp)
      · have htake := congrArg (List.take (oldPath.data.length + 1)) hu
        rw [show newPath.data ++ '/' :: r = (newPath.data ++ ['/']) ++ r from by simp] at htake
        rw [List.take_left' (by simp [hlen])] at htake
        rw [List.take_left' (by simp)] at htake
        have hNO : newPath.data = oldPath.data :=
          List.append_inj_left htake (by simp [hlen])
        exact absurd (string_data_inj hNO.symm) hne
      · have htake := congrArg (List.take (newPath.data.length + 1)) hu.symm
        rw [show (oldPath.data ++ ['/']) ++ u = oldPath.data ++ '/' :: u from by simp] at htake
        rw [List.take_append_of_le_length (by omega)] at htake
        rw [show newPath.data ++ '/' :: r = (newPath.data ++ ['/']) ++ r from by simp] at htake
        rw [List.take_left' (by simp)] at htake
        have hOsplit : oldPath.data =
            (newPath.data ++ ['/']) ++ oldPath.data.drop (newPath.data.length + 1) := by
          rw [← htake, List.take_append_drop]
        rw [(prefOf_iff _ _).2 ⟨_, hOsplit⟩] at h2'
        exact absurd h2' (by simp)
    · rw [beq_eq_false_iff_ne]
      intro hcc
      have hdd : newPath.data ++ '/' :: r = oldPath.data := by
        rw [← hT, hcc]
      have hOsplit : oldPath.data = (newPath.data ++ ['/']) ++ r := by
        rw [← hdd]
        simp
      rw [(prefOf_iff _ _).2 ⟨r, hOsplit⟩] at h2'
      exact absurd h2' (by simp)
  · have hpo : p = oldPath := by simpa using heq
    subst hpo
    have hT : (NotesFileTracker.renameTarget p newPath p).data = newPath.data := by
      show newPath.data ++ p.data.drop p.data.length = newPath.data
      rw [List.drop_length]
      simp
    refine ⟨?_, ?_⟩
    · show (p.data ++ ['/']).isPrefixOf
        (NotesFileTracker.renameTarget p newPath p).data = false
      rw [hT]
      exact h1'
    · rw [beq_eq_false_iff_ne]
      intro hcc
      have hdd := congrArg String.data hcc
      rw [hT] at hdd
      exact absurd (string_data_inj hdd.symm) hne

theorem renApply_step (now : Nat) (oldPath newPath src : String) (ps : List String)
    (n0 : Note)
    (hne : oldPath ≠ newPath)
    (h1 : strStarts newPath (strCat oldPath "/") = false)
    (h2 : strStarts oldPath (strCat newPath "/") = false)
    (hsrc : NotesFileTracker.affectedPath oldPath src = true) :
    (if (renApply now oldPath newPath ps n0).filePath == src
      then { renApply now oldPath newPath ps n0 with
              filePath := NotesFileTracker.renameTarget oldPath newPath src
              updatedAt := now }
      else renApply now oldPath newPath ps n0) =
      renApply now oldPath newPath (ps ++ [src]) n0 := by
  by_cases hc : NotesFileTracker.affectedPath oldPath n0.filePath = true ∧ n0.filePath ∈ ps
  · have hmoved : renApply now oldPath newPath ps n0 =
        { n0 with
          filePath := NotesFileTracker.renameTarget oldPath newPath n0.filePath
          updatedAt := now } := by
      unfold renApply
      rw [if_pos hc]
    have hnaff := renameTarget_unaffected oldPath newPath n0.filePath hne h1 h2 hc.1
    have hfp : ({ n0 with
        filePath := NotesFileTracker.renameTarget oldPath newPath n0.filePath
        updatedAt := now } : Note).filePath ≠ src := by
      show NotesFileTracker.renameTarget oldPath newPath n0.filePath ≠ src
      intro hcc
      rw [hcc, hsrc] at hnaff
      exact absurd hnaff (by simp)
    rw [hmoved, if_neg (by simpa using hfp)]
    unfold renApply
    rw [if_pos ⟨hc.1, List.mem_append_left _ hc.2⟩]
  · have hstay : renApply now oldPath newPath ps n0 = n0 := by
      unfold renApply
      rw [if_neg hc]
    rw [hstay]
    by_cases hfp : n0.filePath = src
    · rw [if_pos (by simpa using hfp)]
      have haff : NotesFileTracker.affectedPath oldPath n0.filePath = true := by
        rw [hfp]
        exact hsrc
      unfold renApply
      rw [if_pos ⟨haff, List.mem_append_right _ (by simp [hfp])⟩]
      rw [hfp]
    · rw [if_neg (by simpa using hfp)]
      have hcond : ¬ (NotesFileTracker.affectedPath oldPath n0.filePath = true ∧
          n0.filePath ∈ ps ++ [src]) := by
        intro hcc
        rcases List.mem_append.1 hcc.2 with hm | hm
        · exact hc ⟨hcc.1, hm⟩
        · exact hfp (by simpa using hm)
      unfold renApply
      rw [if_neg hcond]

theorem foldl_renameStep_map (now : Nat) (oldPath newPath : String) (svc : NotesService)
    (hne : oldPath ≠ newPath)
    (h1 : strStarts newPath (strCat oldPath "/") = false)
    (h2 : strStarts oldPath (strCat newPath "/") = false) :
    ∀ (pu : List (String × String)) (ps : List String)
      (acc : NotesService × List NotesChangeEvent),
      acc.1.notes = svc.notes.map (renApply now oldPath newPath ps) →
      (∀ e ∈ pu, NotesFileTracker.affectedPath oldPath e.1 = true ∧
        e.2 = NotesFileTracker.renameTarget oldPath newPath e.1) →
      (pu.foldl (NotesFileTracker.renameStep now) acc).1.notes =
        svc.notes.map (renApply now oldPath newPath (ps ++ pu.map Prod.fst)) := by
  intro pu
  induction pu with
  | nil =>
    intro ps acc hacc _
    simpa using hacc
  | cons e t ih =>
    intro ps acc hacc hpu
    rw [List.foldl_cons]
    have he := hpu e (List.mem_cons_self e t)
    have hstep : (NotesFileTracker.renameStep now acc e).1.notes =
        svc.notes.map (renApply now oldPath newPath (ps ++ [e.1])) := by
      show acc.1.notes.map (fun n =>
        if n.filePath == e.1 then { n with filePath := e.2, updatedAt := now } else n) = _
      rw [hacc, he.2, List.map_map]
      refine List.map_congr_left ?_
      intro n0 _
      exact renApply_step now oldPath newPath e.1 ps n0 hne h1 h2 he.1
    have hres := ih (ps ++ [e.1]) (NotesFileTracker.renameStep now acc e) hstep
      (fun e' he' => hpu e' (List.mem_cons_of_mem e he'))
    rw [hres]
    have hps : (ps ++ [e.1]) ++ t.map Prod.fst = ps ++ (e :: t).map Prod.fst := by
      simp
    rw [hps]

theorem dirRenameUpdates_spec (svc : NotesService) (oldPath newPath : String) :
    ∀ e ∈ NotesFileTracker.dirRenameUpdates svc oldPath newPath,
      NotesFileTracker.affectedPath oldPath e.1 = true ∧
        e.2 = NotesFileTracker.renameTarget oldPath newPath e.1 := by
  intro e he
  unfold NotesFileTracker.dirRenameUpdates at he
  obtain ⟨note, hmem, hf⟩ := List.mem_filterMap.1 he
  by_cases haff : NotesFileTracker.affectedPath oldPath note.filePath = true
  · rw [if_pos haff] at hf
    cases Option.some.inj hf
    exact ⟨haff, rfl⟩
  · rw [if_neg haff] at hf
    exact absurd hf (by simp)

theorem dirRenameUpdates_covers (svc : NotesService) (oldPath newPath : String)
    {n : Note} (hn : n ∈ svc.notes)
    (haff : NotesFileTracker.affectedPath oldPath n.filePath = true) :
    n.filePath ∈ (NotesFileTracker.dirRenameUpdates svc oldPath newPath).map Prod.fst := by
  have hall : n ∈ svc.getAll := by
    unfold NotesService.getAll
    exact (List.perm_insertionSort noteFileLine svc.notes).mem_iff.2 hn
  refine List.mem_map.2
    ⟨(n.filePath, NotesFileTracker.renameTarget oldPath newPath n.filePath), ?_, rfl⟩
  unfold NotesFileTracker.dirRenameUpdates
  exact List.mem_filterMap.2 ⟨n, hall, by rw [if_pos haff]⟩

end RenameC9

/-- Counterexample to claim C9: renaming directory `/a` to `/a/z` (a target
inside the renamed directory's own subtree).  Both notes are affected; the
collected per-note pairs are applied one `updateFilePath` at a time, and the
second pair `/a/z/c → /a/z/z/c` also matches the note already rewritten to
`/a/z/c` by the first pair, rewriting it a second time.  The note that started
at `/a/c` ends at `/a/z/z/c` instead of its prefix replacement `/a/z/c`. -/
theorem claim_c9_cex :
    ((NotesFileTracker.handleDirRename 1 svcC9 "/a" "/a/z").1.notes.map
        (fun n => (n.id, n.filePath))) = [("n1", "/a/z/z/c"), ("n2", "/a/z/z/c")] ∧
      NotesFileTracker.renameTarget "/a" "/a/z" "/a/c" = "/a/z/c" := by
  decide

/-- Claim C9 amended: provided the two directory paths are distinct and
neither is inside the other (`newPath` does not start with `oldPath + '/'`
and vice versa — excluded, the per-pair update loop can cascade, rewriting a
note's path twice, see the counterexample), a directory rename from `oldPath`
to `newPath` rewrites exactly the notes whose `filePath` equals `oldPath` or
starts with `oldPath + '/'`, replacing exactly the `oldPath` prefix by
`newPath` (and stamping `updatedAt`), and leaves every other note unchanged. -/
theorem claim_c9_amended (now : Nat) (svc : NotesService) (oldPath newPath : String)
    (hne : oldPath ≠ newPath)
    (h1 : strStarts newPath (strCat oldPath "/") = false)
    (h2 : strStarts oldPath (strCat newPath "/") = false) :
    (NotesFileTracker.handleDirRename now svc oldPath newPath).1.notes =
      svc.notes.map (fun n =>
        if NotesFileTracker.affectedPath oldPath n.filePath = true then
          { n with
            filePath := NotesFileTracker.renameTarget oldPath newPath n.filePath
            updatedAt := now }
        else n) := by
  have h0 : (svc, ([] : List NotesChangeEvent)).1.notes =
      svc.notes.map (renApply now oldPath newPath []) := by
    have hid : ∀ n ∈ svc.notes, renApply now oldPath newPath [] n = id n := by
      intro n _
      unfold renApply
      rw [if_neg (fun hcc => by simpa using hcc.2)]
      rfl
    show svc.notes = _
    rw [List.map_congr_left hid, List.map_id]
  have h := foldl_renameStep_map now oldPath newPath svc hne h1 h2
    (NotesFileTracker.dirRenameUpdates svc oldPath newPath) [] (svc, []) h0
    (dirRenameUpdates_spec svc oldPath newPath)
  unfold NotesFileTracker.handleDirRename
  rw [h]
  refine List.map_congr_left ?_
  intro n hn
  unfold renApply
  by_cases haff : NotesFileTracker.affectedPath oldPath n.filePath = true
  · rw [if_pos ⟨haff, by simpa using dirRenameUpdates_covers svc oldPath newPath hn haff⟩,
      if_pos haff]
  · rw [if_neg (fun hcc => haff hcc.1), if_neg haff]

/-- Witness for the amended C9 on the spec's own example: renaming `/a/b` to
`/a/bee` rewrites the note at `/a/b/x.ts` to `/a/bee/x.ts` and leaves the note
at `/a/ab/x.ts` untouched. -/
theorem claim_c9_amended_witness :
    (NotesFileTracker.handleDirRename 7 svcC9w "/a/b" "/a/bee").1.notes =
      svcC9w.notes.map (fun n =>
        if NotesFileTracker.affectedPath "/a/b" n.filePath = true then
          { n with
            filePath := NotesFileTracker.renameTarget "/a/b" "/a/bee" n.filePath
            updatedAt := 7 }
        else n) :=
  claim_c9_amended 7 svcC9w "/a/b" "/a/bee" (by decide) (by decide) (by decide)

end DevTools
